import Mathlib

/-!
Shallow embedding of the Amazon Bedrock embedding engine
(`src/services/code-index/embedders/bedrock.ts`) and of its concurrency gate
(`Semaphore`), together with proofs about the retry/backoff loop, the
family-dispatched embedding pipeline, and the gate's invariants.
-/

namespace KiloBedrock

/-- JSON-like values, the shape of decoded transport response bodies
(`JSON.parse(new TextDecoder().decode(result.body))`). -/
inductive JVal where
  | num (n : Int)
  | str (s : String)
  | arr (xs : List JVal)
  | obj (fields : List (String × JVal))
  | nullv

/-- Property access `body.<name>` on a decoded JSON value: a field of an
object, absent (undefined) otherwise. -/
def getField : JVal → String → Option JVal
  | JVal.obj fields, name => (fields.find? (fun p => p.1 = name)).map (fun p => p.2)
  | _, _ => none

/-- A raw transport failure: the optional HTTP status (`error.status` as read
through the `HttpError` cast) and the error message. -/
structure RawError where
  status : Option Nat
  message : String

/-- Outcome of one transport call `client.send(command)`. -/
inductive TransportOutcome where
  | ok (body : JVal)
  | err (e : RawError)

/-- Number of UTF-16 code units of a string: the value of JavaScript's
`text.length` on the same text. -/
def utf16Len (s : String) : Nat :=
  s.data.foldl (fun n c => n + (if c.val ≤ 0xFFFF then 1 else 2)) 0

/-- Computes `Math.ceil(text.length / 4)`: the token estimate the source computes per
text (`text.length` being UTF-16 code units). -/
def ceilTok (s : String) : Nat := (utf16Len s + 3) / 4

/-- The token estimate as the spec words it (§3): `ceil(utf8_length(text)/4)`
with `utf8_length` the UTF-8 byte length.  Stated from the spec's words only,
for comparison against `ceilTok` which embeds the source. -/
def specUtf8TokenEstimate (s : String) : Nat := (s.utf8ByteSize + 3) / 4

/-- Modelled from the spec: `MAX_BATCH_RETRIES` is imported from
`../constants`; the constants module is not among the sources, and spec §3/§4
fix the default `maxRetries` at 3. -/
def MAX_BATCH_RETRIES : Nat := 3

/-- Embeds `s.startsWith(p)` as a computation on the underlying character lists
(equivalent to the JavaScript prefix test on the model-id strings involved). -/
def strStartsWith (s p : String) : Bool := s.data.take p.data.length = p.data

/-- Embeds `modelId.startsWith("amazon.titan-embed-")`. -/
def isTitanModel (modelId : String) : Bool := strStartsWith modelId "amazon.titan-embed-"

/-- Embeds `modelId.startsWith("cohere.embed-")`. -/
def isCohereModel (modelId : String) : Bool := strStartsWith modelId "cohere.embed-"

/-- Modelled from the spec: `formatEmbeddingError` lives in
`shared/validation-helpers`, which is not among the sources.  Spec §7: a 401
failure maps to an authentication message, a 403 to a permission message, any
other failure to a generic message that includes the attempt count and the
underlying error text or status code.  (The message-substring connection-error
classification of §7/§9 is not modelled; its substring list is not in the
sources.) -/
def formatEmbeddingError (e : RawError) (attempts : Nat) : String :=
  match e.status with
  | some 401 => "Failed to create embeddings: Authentication failed. Please check your AWS credentials."
  | some 403 =>
      "Failed to create embeddings after " ++ toString attempts ++
        " attempts: Permission denied. Check your AWS IAM permissions."
  | some code =>
      "Failed to create embeddings after " ++ toString attempts ++ " attempts: HTTP " ++
        toString code ++ " - " ++ e.message
  | none =>
      "Failed to create embeddings after " ++ toString attempts ++ " attempts: " ++ e.message

/-- Message `t("embeddings:failedMaxAttempts", ...)`: the error thrown should the
retry loop fall through (spec §7's "failed after N attempts"). -/
def failedMaxAttemptsMsg (attempts : Nat) : String :=
  "Failed to create embeddings after " ++ toString attempts ++ " attempts"

/-- Observable outcome of one logical call through `invokeModelWithRetries`:
the decoded response or the thrown error message, the number of transport
calls made, and the backoff delays awaited (in order). -/
structure InvokeOut where
  result : Except String JVal
  calls : Nat
  delays : List Nat

/-- The body of `invokeModelWithRetries`, one loop iteration per fuel unit.
`tr attempt` is the transport outcome of `client.send` on that attempt.
Fuel starts at `maxRetries` with `attempt = 0`, so fuel running out is
exactly the `for` loop guard `attempt < this.maxRetries` failing. -/
def invokeAux (maxRetries initialDelayMs : Nat) (tr : Nat → TransportOutcome) :
    Nat → Nat → InvokeOut
  | _, 0 => ⟨Except.error (failedMaxAttemptsMsg maxRetries), 0, []⟩
  | attempt, fuel + 1 =>
    match tr attempt with
    | TransportOutcome.ok body => ⟨Except.ok body, 1, []⟩
    | TransportOutcome.err e =>
      if e.status = some 429 ∧ attempt < maxRetries - 1 then
        let delayMs := initialDelayMs * 2 ^ attempt
        let rest := invokeAux maxRetries initialDelayMs tr (attempt + 1) fuel
        ⟨rest.result, rest.calls + 1, delayMs :: rest.delays⟩
      else
        ⟨Except.error (formatEmbeddingError e maxRetries), 1, []⟩

/-- Embeds `invokeModelWithRetries(input)`: retry loop over the transport, retrying
only HTTP-429 throttling while attempts remain, with delay
`INITIAL_RETRY_DELAY_MS * 2^attempt` before each retry. -/
def invokeModelWithRetries (maxRetries initialDelayMs : Nat) (tr : Nat → TransportOutcome) :
    InvokeOut :=
  invokeAux maxRetries initialDelayMs tr 0 maxRetries

/-- Observable outcome of one gated Titan body (`embedTitanText`): the
embedding value and token estimate, or the thrown error message; plus the
transport-call count and backoff delays of its retry loop. -/
structure BodyOut where
  result : Except String (JVal × Nat)
  calls : Nat
  delays : List Nat

/-- Embeds `embedTitanText(text, modelId)`: one retried transport call, then decode
`response.embedding`, requiring `Array.isArray`, and estimate tokens as
`Math.ceil(text.length / 4)`. -/
def embedTitanText (maxRetries initialDelayMs : Nat) (tr : Nat → TransportOutcome)
    (text : String) : BodyOut :=
  match invokeModelWithRetries maxRetries initialDelayMs tr with
  | ⟨Except.error e, c, ds⟩ => ⟨Except.error e, c, ds⟩
  | ⟨Except.ok body, c, ds⟩ =>
    match getField body "embedding" with
    | some (JVal.arr v) => ⟨Except.ok (JVal.arr v, ceilTok text), c, ds⟩
    | _ => ⟨Except.error "Invalid Titan embedding response", c, ds⟩

/-- Observable outcome of one Cohere chunk call (`embedCohereBatch`). -/
structure BatchOut where
  result : Except String (List JVal × Nat)
  calls : Nat
  delays : List Nat

/-- Embeds `embedCohereBatch(texts, modelId)`: one retried transport call, then
decode `response.embeddings`, requiring only `Array.isArray` (no length or
element check), and estimate tokens as the sum of `Math.ceil(length / 4)`
over the chunk's texts. -/
def embedCohereBatch (maxRetries initialDelayMs : Nat) (tr : Nat → TransportOutcome)
    (texts : List String) : BatchOut :=
  match invokeModelWithRetries maxRetries initialDelayMs tr with
  | ⟨Except.error e, c, ds⟩ => ⟨Except.error e, c, ds⟩
  | ⟨Except.ok body, c, ds⟩ =>
    match getField body "embeddings" with
    | some (JVal.arr xs) =>
        ⟨Except.ok (xs, texts.foldl (fun sum t => sum + ceilTok t) 0), c, ds⟩
    | _ => ⟨Except.error "Invalid Cohere embedding response", c, ds⟩

/-- The chunking performed by `processCohereEmbeddings`'s loop
(`for (let i = 0; i < texts.length; i += batchSize) texts.slice(i, i + batchSize)`).
For `bs = 0` the source loop would never terminate; this embedding returns
`[]` there, and every claim touching the Cohere path assumes `0 < bs`. -/
def chunkAux (bs : Nat) : Nat → List α → List (List α)
  | _, [] => []
  | 0, _ :: _ => []
  | fuel + 1, x :: xs =>
    if bs = 0 then []
    else (x :: xs).take bs :: chunkAux bs fuel ((x :: xs).drop bs)

/-- The chunking loop, with fuel `l.length`, which suffices: each recursive
step consumes a nonempty prefix when `0 < bs`. -/
def chunkList (bs : Nat) (l : List α) : List (List α) := chunkAux bs l.length l

/-- The body of `processCohereEmbeddings`' loop over chunks: `tr j` is the
transport oracle of chunk `j`'s logical call.  The first failing chunk's
error propagates and no later chunk is invoked; successes are concatenated
in chunk order and token estimates summed.  Second component: total
transport calls made. -/
def cohereGo (maxRetries initialDelayMs : Nat) (tr : Nat → Nat → TransportOutcome) :
    Nat → List (List String) → (Except String (List JVal × Nat)) × Nat
  | _, [] => (Except.ok ([], 0), 0)
  | j, batch :: rest =>
    match embedCohereBatch maxRetries initialDelayMs (tr j) batch with
    | ⟨Except.error e, c, _⟩ => (Except.error e, c)
    | ⟨Except.ok (vs, tk), c, _⟩ =>
      match cohereGo maxRetries initialDelayMs tr (j + 1) rest with
      | (Except.ok (vs2, tk2), c2) => (Except.ok (vs ++ vs2, tk + tk2), c + c2)
      | (Except.error e, c2) => (Except.error e, c + c2)

/-- Embeds `processCohereEmbeddings(texts, modelId)`: sequential batched processing. -/
def processCohereEmbeddings (maxRetries initialDelayMs batchSize : Nat)
    (tr : Nat → Nat → TransportOutcome) (texts : List String) :
    (Except String (List JVal × Nat)) × Nat :=
  cohereGo maxRetries initialDelayMs tr 0 (chunkList batchSize texts)

/-! ### The `Semaphore` gate and the Titan path as a transition system

`processTitanEmbeddings` launches one async task per text through
`semaphore.acquire`; tasks spawn synchronously in `texts.map` and complete in
an order chosen by the event loop.  The machine below makes both kinds of
events explicit so claims can quantify over completion order. -/

/-- Status of one per-text gated task. -/
inductive TaskSt where
  | pending
  | queued
  | running
  | done (o : Except String (JVal × Nat))

/-- State of one `processTitanEmbeddings` invocation: the `Semaphore`'s
`permits` and FIFO `waiting` queue, each task's status, the accumulated
`totalTokens`, the first rejection seen by `Promise.all` (if any), and the
task ids whose gated bodies have started, in start order. -/
structure MState where
  permits : Nat
  queue : List Nat
  tasks : List TaskSt
  tokens : Nat
  firstErr : Option String
  started : List Nat

/-- State at the start of `processTitanEmbeddings`: a fresh
`new Semaphore(maxConcurrency)` and one not-yet-spawned task per text. -/
def initState (maxConcurrency n : Nat) : MState :=
  ⟨maxConcurrency, [], List.replicate n TaskSt.pending, 0, none, []⟩

/-- Embeds `semaphore.acquire(fn)` for task `i` (the synchronous part of the
`texts.map` callback): with a free permit the body starts at once; otherwise
the task is pushed to the tail of `waiting`. -/
def spawnStep (s : MState) (i : Nat) : Option MState :=
  match s.tasks[i]? with
  | some TaskSt.pending =>
    if 0 < s.permits then
      some ⟨s.permits - 1, s.queue, s.tasks.set i TaskSt.running, s.tokens, s.firstErr,
        s.started ++ [i]⟩
    else
      some ⟨s.permits, s.queue ++ [i], s.tasks.set i TaskSt.queued, s.tokens, s.firstErr,
        s.started⟩
  | _ => none

/-- Completion of running task `i`'s gated body, with outcome `body i`: on
success `totalTokens += result.tokens`; on failure the rejection is recorded
(the earliest one is what `Promise.all` rejects with).  The `finally` block
returns the permit and, if waiters exist, shifts the earliest waiter, which
takes the permit back and starts its own body — on the success and failure
paths alike. -/
def completeStep (body : Nat → Except String (JVal × Nat)) (s : MState) (i : Nat) :
    Option MState :=
  match s.tasks[i]? with
  | some TaskSt.running =>
    let o := body i
    let tasks1 := s.tasks.set i (TaskSt.done o)
    let tokens1 := match o with
      | Except.ok (_, tk) => s.tokens + tk
      | Except.error _ => s.tokens
    let firstErr1 := match s.firstErr, o with
      | none, Except.error e => some e
      | f, _ => f
    match s.queue with
    | [] => some ⟨s.permits + 1, [], tasks1, tokens1, firstErr1, s.started⟩
    | j :: rest =>
        some ⟨s.permits + 1 - 1, rest, tasks1.set j TaskSt.running, tokens1, firstErr1,
          s.started ++ [j]⟩
  | _ => none

/-- A scheduler event: spawn task `i` (the `texts.map` callback reaching it)
or complete running task `i`'s body. -/
inductive MStep where
  | spawn (i : Nat)
  | complete (i : Nat)

/-- One scheduler event. -/
def mstep (body : Nat → Except String (JVal × Nat)) (s : MState) : MStep → Option MState
  | MStep.spawn i => spawnStep s i
  | MStep.complete i => completeStep body s i

/-- Run a schedule of events; `none` if some event is invalid. -/
def mrun (body : Nat → Except String (JVal × Nat)) (sched : List MStep) (s : MState) :
    Option MState :=
  sched.foldlM (fun st ev => mstep body st ev) s

def isRunning : TaskSt → Bool
  | TaskSt.running => true
  | _ => false

def isDone : TaskSt → Bool
  | TaskSt.done _ => true
  | _ => false

/-- Number of gated bodies currently executing. -/
def countRunning (s : MState) : Nat := s.tasks.countP isRunning

/-- All gated tasks have completed (`Promise.all` settled). -/
def allDone (s : MState) : Bool := s.tasks.all isDone

/-- What `processTitanEmbeddings` returns once `Promise.all` settles: the
first rejection if any task failed, else the per-task embeddings in task
order together with the accumulated token total. -/
def collectTitan (s : MState) : Except String (List JVal × Nat) :=
  match s.firstErr with
  | some e => Except.error e
  | none =>
      Except.ok
        (s.tasks.filterMap (fun t =>
          match t with
          | TaskSt.done (Except.ok (v, _)) => some v
          | _ => none), s.tokens)

/-- Total transport calls made by the started gated bodies. -/
def titanTransportCalls (bodyCalls : Nat → Nat) (s : MState) : Nat :=
  (s.started.map bodyCalls).sum

/-- Embeds `processTitanEmbeddings(texts, modelId)` under schedule `sched`:
`tr i` is the transport oracle of text `i`'s logical call. -/
def processTitanRun (maxRetries initialDelayMs maxConcurrency : Nat)
    (tr : Nat → Nat → TransportOutcome) (texts : List String) (sched : List MStep) :
    Option ((Except String (List JVal × Nat)) × Nat) :=
  let body := fun i => (embedTitanText maxRetries initialDelayMs (tr i) (texts.getD i "")).result
  let bodyCalls := fun i => (embedTitanText maxRetries initialDelayMs (tr i) (texts.getD i "")).calls
  match mrun body sched (initState maxConcurrency texts.length) with
  | some s => if allDone s then some (collectTitan s, titanTransportCalls bodyCalls s) else none
  | none => none

/-- Aggregated usage counters. -/
structure Usage where
  promptTokens : Nat
  totalTokens : Nat

/-- The value `createEmbeddings` resolves with. -/
structure EmbeddingResponse where
  embeddings : List JVal
  usage : Usage

/-- The configuration fields `createEmbeddings` reads, with the defaults the
constructor spreads in. -/
structure BedrockEmbedderConfig where
  modelId : String
  batchSize : Nat := 32
  maxConcurrency : Nat := 5
  maxRetries : Nat := MAX_BATCH_RETRIES

/-- Embeds `model || this.config.modelId`: the JavaScript `||` falls back on
any falsy value, so an absent or empty-string override resolves to the
configured model id. -/
def resolveModel (modelOverride : Option String) (configured : String) : String :=
  match modelOverride with
  | some m => if m = "" then configured else m
  | none => configured

/-- Message `t("embeddings:unsupportedModel", ...)`. -/
def unsupportedModelMsg (model : String) : String := "Unsupported model: " ++ model

/-- Embeds `createEmbeddings(texts, model?)` under schedule `sched` (only the Titan
path consults the schedule; the Cohere path is sequential and deterministic):
the resolved or rejected value plus the number of transport calls made. -/
def createEmbeddingsRun (cfg : BedrockEmbedderConfig) (initialDelayMs : Nat)
    (texts : List String) (modelOverride : Option String)
    (tr : Nat → Nat → TransportOutcome) (sched : List MStep) :
    Option ((Except String EmbeddingResponse) × Nat) :=
  let modelToUse := resolveModel modelOverride cfg.modelId
  if isTitanModel modelToUse then
    match processTitanRun cfg.maxRetries initialDelayMs cfg.maxConcurrency tr texts sched with
    | some (Except.ok (embs, tk), c) => some (Except.ok ⟨embs, ⟨tk, tk⟩⟩, c)
    | some (Except.error e, c) => some (Except.error e, c)
    | none => none
  else if isCohereModel modelToUse then
    match processCohereEmbeddings cfg.maxRetries initialDelayMs cfg.batchSize tr texts with
    | (Except.ok (embs, tk), c) => some (Except.ok ⟨embs, ⟨tk, tk⟩⟩, c)
    | (Except.error e, c) => some (Except.error e, c)
  else
    some (Except.error (unsupportedModelMsg modelToUse), 0)

/-! ### Lemmas about the retry loop -/

/-- A transport success on the first attempt ends the retry loop at once. -/
lemma invoke_ok_first (maxRetries initialDelayMs : Nat) (tr : Nat → TransportOutcome)
    (body : JVal) (hmr : 0 < maxRetries) (h : tr 0 = TransportOutcome.ok body) :
    invokeModelWithRetries maxRetries initialDelayMs tr = ⟨Except.ok body, 1, []⟩ := by
  obtain ⟨f, rfl⟩ : ∃ f, maxRetries = f + 1 :=
    ⟨maxRetries - 1, by omega⟩
  simp [invokeModelWithRetries, invokeAux, h]

/-- Generalized run of the loop through `j` throttled attempts followed by a
success, starting at a given attempt index with the fuel the loop carries
there. -/
lemma invokeAux_throttle (maxRetries initialDelayMs : Nat) (tr : Nat → TransportOutcome)
    (body : JVal) :
    ∀ (j attempt : Nat), attempt + j + 1 ≤ maxRetries →
      (∀ i, i < j → ∃ e, tr (attempt + i) = TransportOutcome.err e ∧ e.status = some 429) →
      tr (attempt + j) = TransportOutcome.ok body →
      invokeAux maxRetries initialDelayMs tr attempt (maxRetries - attempt) =
        ⟨Except.ok body, j + 1,
          (List.range j).map (fun i => initialDelayMs * 2 ^ (attempt + i))⟩ := by
  intro j
  induction j with
  | zero =>
    intro attempt hle _ hok
    obtain ⟨f, hf⟩ : ∃ f, maxRetries - attempt = f + 1 := ⟨maxRetries - attempt - 1, by omega⟩
    rw [hf]
    simp only [Nat.add_zero] at hok
    simp [invokeAux, hok]
  | succ j ih =>
    intro attempt hle herr hok
    obtain ⟨e, he, he429⟩ := herr 0 (Nat.succ_pos j)
    simp only [Nat.add_zero] at he
    obtain ⟨f, hf⟩ : ∃ f, maxRetries - attempt = f + 1 := ⟨maxRetries - attempt - 1, by omega⟩
    rw [hf]
    simp only [invokeAux, he]
    rw [if_pos ⟨he429, by omega⟩]
    have hfuel : f = maxRetries - (attempt + 1) := by omega
    rw [hfuel]
    rw [ih (attempt + 1) (by omega)
      (fun i hi => by
        have harith : attempt + 1 + i = attempt + (i + 1) := by omega
        rw [harith]
        exact herr (i + 1) (by omega))
      (by
        have harith : attempt + 1 + j = attempt + (j + 1) := by omega
        rw [harith]; exact hok)]
    have harith : ∀ i : Nat, attempt + 1 + i = attempt + Nat.succ i := fun i => by omega
    simp [List.range_succ_eq_map, List.map_map, Function.comp, harith]

/-- The retry loop under `k` initial throttling failures and a success on
attempt `k`. -/
lemma invoke_throttle_run (maxRetries initialDelayMs k : Nat) (tr : Nat → TransportOutcome)
    (body : JVal) (hk : k + 1 ≤ maxRetries)
    (herr : ∀ i, i < k → ∃ e, tr i = TransportOutcome.err e ∧ e.status = some 429)
    (hok : tr k = TransportOutcome.ok body) :
    invokeModelWithRetries maxRetries initialDelayMs tr =
      ⟨Except.ok body, k + 1, (List.range k).map (fun i => initialDelayMs * 2 ^ i)⟩ := by
  have h := invokeAux_throttle maxRetries initialDelayMs tr body k 0 (by omega)
    (fun i hi => by simpa using herr i hi) (by simpa using hok)
  simpa [invokeModelWithRetries] using h

/-- A failure that is not a retryable throttle — any non-429 status, or a 429
with no attempts left (`maxRetries = 1`) — is terminal on the first attempt:
one transport call, no delay, the classified error. -/
lemma invoke_terminal_first (maxRetries initialDelayMs : Nat) (tr : Nat → TransportOutcome)
    (e : RawError) (hmr : 0 < maxRetries) (h : tr 0 = TransportOutcome.err e)
    (hterm : ¬(e.status = some 429) ∨ maxRetries = 1) :
    invokeModelWithRetries maxRetries initialDelayMs tr =
      ⟨Except.error (formatEmbeddingError e maxRetries), 1, []⟩ := by
  obtain ⟨f, rfl⟩ : ∃ f, maxRetries = f + 1 := ⟨maxRetries - 1, by omega⟩
  simp only [invokeModelWithRetries, invokeAux, h]
  rw [if_neg]
  rintro ⟨h429, hlt⟩
  rcases hterm with hne | hone
  · exact hne h429
  · omega

/-! ### Lemmas about decoding -/

/-- Property access on a one-field object. -/
lemma getField_single (name : String) (v : JVal) :
    getField (JVal.obj [(name, v)]) name = some v := by
  simp [getField, List.find?]

/-- A Titan gated body whose single transport attempt succeeds with a
well-formed `embedding` field. -/
lemma embedTitanText_ok (maxRetries initialDelayMs : Nat) (tr : Nat → TransportOutcome)
    (text : String) (v : List JVal) (hmr : 0 < maxRetries)
    (h : tr 0 = TransportOutcome.ok (JVal.obj [("embedding", JVal.arr v)])) :
    embedTitanText maxRetries initialDelayMs tr text =
      ⟨Except.ok (JVal.arr v, ceilTok text), 1, []⟩ := by
  rw [embedTitanText, invoke_ok_first maxRetries initialDelayMs tr _ hmr h]
  simp [getField_single]

/-- Whenever a Titan gated body succeeds, its token estimate is
`Math.ceil(text.length / 4)` of its text, whatever the transport did. -/
lemma embedTitanText_tokens (maxRetries initialDelayMs : Nat) (tr : Nat → TransportOutcome)
    (text : String) (v : JVal) (tk : Nat)
    (h : (embedTitanText maxRetries initialDelayMs tr text).result = Except.ok (v, tk)) :
    tk = ceilTok text := by
  rw [embedTitanText] at h
  rcases hI : invokeModelWithRetries maxRetries initialDelayMs tr with ⟨r, c, ds⟩
  rw [hI] at h
  cases r with
  | error e => simp at h
  | ok body =>
    rcases hg : getField body "embedding" with _ | w
    · simp [hg] at h
    · cases w <;> simp [hg] at h
      exact h.2.symm

/-- Folding `sum + Math.ceil(t.length / 4)` over a chunk is a mapped sum. -/
lemma foldl_add_ceilTok (l : List String) (a : Nat) :
    l.foldl (fun sum t => sum + ceilTok t) a = a + (l.map ceilTok).sum := by
  induction l generalizing a with
  | nil => simp
  | cons t l ih => simp [ih, Nat.add_assoc]

/-- A Cohere chunk call whose single transport attempt succeeds decodes by
the `Array.isArray` test alone: an `embeddings` array of any length or
element shape is accepted as-is, anything else raises the malformed-response
error; either way exactly one transport call and no backoff delay. -/
lemma embedCohereBatch_decode (maxRetries initialDelayMs : Nat) (tr : Nat → TransportOutcome)
    (texts : List String) (body : JVal) (hmr : 0 < maxRetries)
    (h : tr 0 = TransportOutcome.ok body) :
    (∀ xs, getField body "embeddings" = some (JVal.arr xs) →
      embedCohereBatch maxRetries initialDelayMs tr texts =
        ⟨Except.ok (xs, (texts.map ceilTok).sum), 1, []⟩) ∧
    ((∀ xs, getField body "embeddings" ≠ some (JVal.arr xs)) →
      embedCohereBatch maxRetries initialDelayMs tr texts =
        ⟨Except.error "Invalid Cohere embedding response", 1, []⟩) := by
  constructor
  · intro xs hg
    rw [embedCohereBatch, invoke_ok_first maxRetries initialDelayMs tr _ hmr h]
    simp [hg, foldl_add_ceilTok]
  · intro hg
    rw [embedCohereBatch, invoke_ok_first maxRetries initialDelayMs tr _ hmr h]
    rcases hf : getField body "embeddings" with _ | w
    · simp [hf]
    · cases w <;> simp [hf]
      exact absurd hf (hg _)

/-- Whenever a Cohere chunk call succeeds, its token estimate is the summed
per-text estimate of its chunk, whatever the transport returned. -/
lemma embedCohereBatch_tokens (maxRetries initialDelayMs : Nat) (tr : Nat → TransportOutcome)
    (texts : List String) (xs : List JVal) (tk : Nat)
    (h : (embedCohereBatch maxRetries initialDelayMs tr texts).result = Except.ok (xs, tk)) :
    tk = (texts.map ceilTok).sum := by
  rw [embedCohereBatch] at h
  rcases hI : invokeModelWithRetries maxRetries initialDelayMs tr with ⟨r, c, ds⟩
  rw [hI] at h
  cases r with
  | error e => simp at h
  | ok body =>
    rcases hg : getField body "embeddings" with _ | w
    · simp [hg] at h
    · cases w <;> simp [hg] at h
      rw [← h.2, foldl_add_ceilTok]
      simp

/-! ### Lemmas about chunking and the Cohere loop -/

/-- The chunks of a list concatenate back to the list (the loop covers
`texts` without gap or overlap). -/
lemma chunkAux_flatten (bs : Nat) (hbs : 0 < bs) :
    ∀ (fuel : Nat) (l : List α), l.length ≤ fuel → (chunkAux bs fuel l).flatten = l := by
  intro fuel
  induction fuel with
  | zero =>
    intro l hl
    cases l with
    | nil => simp [chunkAux]
    | cons x xs => simp at hl
  | succ f ih =>
    intro l hl
    cases l with
    | nil => simp [chunkAux]
    | cons x xs =>
      rw [chunkAux, if_neg (by omega)]
      simp only [List.flatten_cons]
      rw [ih ((x :: xs).drop bs) (by
        simp only [List.length_drop, List.length_cons]
        simp only [List.length_cons] at hl
        omega)]
      exact List.take_append_drop bs (x :: xs)

lemma chunkList_flatten (bs : Nat) (hbs : 0 < bs) (l : List α) :
    (chunkList bs l).flatten = l :=
  chunkAux_flatten bs hbs l.length l (Nat.le_refl _)

/-- Chunk boundaries depend only on positions, so chunking commutes with
mapping. -/
lemma chunkAux_map (bs : Nat) (f : α → β) :
    ∀ (fuel : Nat) (l : List α),
      chunkAux bs fuel (l.map f) = (chunkAux bs fuel l).map (List.map f) := by
  intro fuel
  induction fuel with
  | zero => intro l; cases l <;> simp [chunkAux]
  | succ fl ih =>
    intro l
    cases l with
    | nil => simp [chunkAux]
    | cons x xs =>
      by_cases hbs : bs = 0
      · simp [chunkAux, hbs]
      · simp only [List.map_cons, chunkAux, if_neg hbs]
        rw [← List.map_cons f x xs, ← List.map_take, ← List.map_drop, ih]

lemma chunkList_map (bs : Nat) (f : α → β) (l : List α) :
    chunkList bs (l.map f) = (chunkList bs l).map (List.map f) := by
  rw [chunkList, chunkList, List.length_map]
  exact chunkAux_map bs f l.length l

/-- Any list is the image of its index range under positional lookup. -/
lemma eq_range_map_getD (l : List α) (d0 : α) :
    l = (List.range l.length).map (fun i => l.getD i d0) := by
  apply List.ext_getElem
  · simp
  · intro n h1 h2
    simp [List.getElem?_eq_getElem, h1]

/-- The Cohere loop over well-formed chunks: when every chunk's first
transport attempt returns one vector per chunk position, the loop returns the
chunk outputs concatenated in chunk order, the summed token estimates, and
one transport call per chunk. -/
lemma cohereGo_spec (maxRetries initialDelayMs : Nat) (hmr : 0 < maxRetries)
    (tr : Nat → Nat → TransportOutcome) (getText : Nat → String) (vecOf : Nat → JVal)
    (C : List (List Nat)) :
    ∀ idx : Nat,
      (∀ j, j < C.length → tr (idx + j) 0 =
        TransportOutcome.ok (JVal.obj [("embeddings", JVal.arr ((C.getD j []).map vecOf))])) →
      cohereGo maxRetries initialDelayMs tr idx (C.map (fun c => c.map getText)) =
        (Except.ok (C.flatten.map vecOf,
          (C.flatten.map (fun i => ceilTok (getText i))).sum), C.length) := by
  induction C with
  | nil => intro idx h; simp [cohereGo]
  | cons c C ih =>
    intro idx h
    have h0 := h 0 (by simp)
    simp only [Nat.add_zero, List.getD_cons_zero] at h0
    have hdec := (embedCohereBatch_decode maxRetries initialDelayMs (tr idx)
      (c.map getText) _ hmr h0).1 (c.map vecOf) (getField_single _ _)
    simp only [List.map_cons, cohereGo, hdec]
    rw [ih (idx + 1) (fun j hj => by
      have harith : idx + 1 + j = idx + (j + 1) := by omega
      rw [harith]
      simpa using h (j + 1) (by simpa using hj))]
    simp [List.map_map, Function.comp_def, Nat.add_comm]

/-! ### Gate-machine invariants -/

/-- Token contribution of a task to the accumulated `totalTokens`. -/
def tokOf : TaskSt → Nat
  | TaskSt.done (Except.ok (_, tk)) => tk
  | TaskSt.done (Except.error _) => 0
  | TaskSt.pending => 0
  | TaskSt.queued => 0
  | TaskSt.running => 0

/-- Replacing one element changes `countP` by the two elements' contributions
(stated additively to stay in `Nat`). -/
lemma countP_set_symm (p : α → Bool) :
    ∀ (l : List α) (i : Nat) (a : α) (h : i < l.length),
      (l.set i a).countP p + (if p (l.get ⟨i, h⟩) then 1 else 0) =
        l.countP p + (if p a then 1 else 0) := by
  intro l
  induction l with
  | nil => intro i a h; simp at h
  | cons x xs ih =>
    intro i a h
    cases i with
    | zero => simp [List.countP_cons]; omega
    | succ i =>
      simp only [List.set_cons_succ, List.countP_cons, List.get_cons_succ]
      have := ih i a (by simpa using h)
      omega

/-- Replacing one element changes a `Nat` sum by the two elements'
contributions. -/
lemma sum_set_symm :
    ∀ (l : List Nat) (i : Nat) (x : Nat) (h : i < l.length),
      (l.set i x).sum + l.get ⟨i, h⟩ = l.sum + x := by
  intro l
  induction l with
  | nil => intro i x h; simp at h
  | cons y ys ih =>
    intro i x h
    cases i with
    | zero => simp; omega
    | succ i =>
      simp only [List.set_cons_succ, List.sum_cons, List.get_cons_succ]
      have := ih i x (by simpa using h)
      omega

/-- States one `processTitanEmbeddings` invocation can be in: the initial
state followed by any number of scheduler events. -/
inductive Reach (body : Nat → Except String (JVal × Nat)) (p0 n : Nat) : MState → Prop
  | init : Reach body p0 n (initState p0 n)
  | next {s s' : MState} (ev : MStep) :
      Reach body p0 n s → mstep body s ev = some s' → Reach body p0 n s'

/-- Any state a valid schedule leads to from a reachable state is reachable. -/
lemma Reach.run {body : Nat → Except String (JVal × Nat)} {p0 n : Nat}
    {s s' : MState} (sched : List MStep) (hs : Reach body p0 n s)
    (h : mrun body sched s = some s') : Reach body p0 n s' := by
  induction sched generalizing s with
  | nil =>
    simp only [mrun, List.foldlM_nil] at h
    cases h
    exact hs
  | cons ev sched ih =>
    simp only [mrun, List.foldlM_cons] at h
    rcases h1 : mstep body s ev with _ | s1
    · rw [h1] at h; simp at h
    · rw [h1] at h
      exact ih (Reach.next ev hs h1) h

/-- The inductive invariant of the gate machine. -/
structure Inv (body : Nat → Except String (JVal × Nat)) (p0 n : Nat) (s : MState) : Prop where
  len : s.tasks.length = n
  bal : s.permits + countRunning s = p0
  done_eq : ∀ (i : Nat) (o : Except String (JVal × Nat)),
    s.tasks[i]? = some (TaskSt.done o) → o = body i
  queue_mem : ∀ i : Nat, i ∈ s.queue → s.tasks[i]? = some TaskSt.queued
  nodup : s.queue.Nodup
  tokens_eq : s.tokens = (s.tasks.map tokOf).sum
  err_none : s.firstErr = none →
    ∀ (i : Nat) (o : Except String (JVal × Nat)),
      s.tasks[i]? = some (TaskSt.done o) → ∃ v tk, o = Except.ok (v, tk)

lemma inv_init (body : Nat → Except String (JVal × Nat)) (p0 n : Nat) :
    Inv body p0 n (initState p0 n) := by
  have hrun : countRunning (initState p0 n) = 0 := by
    rw [countRunning, List.countP_eq_zero]
    intro t ht
    rw [List.eq_of_mem_replicate ht]
    simp [isRunning]
  have hdone : ∀ (i : Nat) (o : Except String (JVal × Nat)),
      (initState p0 n).tasks[i]? = some (TaskSt.done o) → False := by
    intro i o h
    rw [initState] at h
    rw [List.getElem?_replicate] at h
    split at h
    · simp at h
    · simp at h
  refine ⟨by simp [initState], by rw [hrun]; simp [initState], ?_, by simp [initState],
    by simp [initState], ?_, ?_⟩
  · intro i o h
    exact absurd h (fun h => hdone i o h)
  · simp [initState, List.map_replicate, tokOf]
  · intro _ i o h
    exact absurd h (fun h => hdone i o h)

/-- Replacing one task changes the summed token contributions by the two
tasks' contributions. -/
lemma sum_map_tokOf_set (l : List TaskSt) (i : Nat) (hi : i < l.length) (a : TaskSt) :
    ((l.set i a).map tokOf).sum + tokOf (l.get ⟨i, hi⟩) = (l.map tokOf).sum + tokOf a := by
  have h := sum_set_symm (l.map tokOf) i (tokOf a) (by simpa using hi)
  rw [← List.map_set] at h
  simpa [List.get_eq_getElem, List.getElem_map] using h

lemma inv_spawn (body : Nat → Except String (JVal × Nat)) (p0 n : Nat)
    (s s' : MState) (i : Nat)
    (hinv : Inv body p0 n s) (h : spawnStep s i = some s') : Inv body p0 n s' := by
  rw [spawnStep] at h
  rcases hti : s.tasks[i]? with _ | t
  · rw [hti] at h; simp at h
  · rw [hti] at h
    cases t with
    | queued => simp at h
    | running => simp at h
    | done o => simp at h
    | pending =>
      obtain ⟨hi, hgi⟩ := List.getElem?_eq_some_iff.mp hti
      have hcount := countP_set_symm isRunning s.tasks i TaskSt.running hi
      rw [List.get_eq_getElem, hgi] at hcount
      simp [isRunning] at hcount
      have htok := sum_map_tokOf_set s.tasks i hi
      by_cases hp : 0 < s.permits
      · rw [if_pos hp] at h
        cases h
        refine ⟨by simp [hinv.len], ?_, ?_, ?_, hinv.nodup, ?_, ?_⟩
        · show s.permits - 1 + (s.tasks.set i TaskSt.running).countP isRunning = p0
          have hb := hinv.bal
          rw [countRunning] at hb
          omega
        · intro j o hj
          rcases eq_or_ne i j with rfl | hne
          · rw [List.getElem?_set_self (by simpa using hi)] at hj
            simp at hj
          · rw [List.getElem?_set_ne hne] at hj
            exact hinv.done_eq j o hj
        · intro j hjq
          have hold := hinv.queue_mem j hjq
          have hne : i ≠ j := by
            intro hij
            rw [← hij, hti] at hold
            simp at hold
          show (s.tasks.set i TaskSt.running)[j]? = some TaskSt.queued
          rw [List.getElem?_set_ne hne]
          exact hold
        · show s.tokens = ((s.tasks.set i TaskSt.running).map tokOf).sum
          have ht := htok TaskSt.running
          rw [List.get_eq_getElem, hgi] at ht
          simp only [tokOf, Nat.add_zero] at ht
          rw [hinv.tokens_eq, ht]
        · intro hfe j o hj
          rcases eq_or_ne i j with rfl | hne
          · rw [List.getElem?_set_self (by simpa using hi)] at hj
            simp at hj
          · rw [List.getElem?_set_ne hne] at hj
            exact hinv.err_none hfe j o hj
      · rw [if_neg hp] at h
        cases h
        have hcq := countP_set_symm isRunning s.tasks i TaskSt.queued hi
        rw [List.get_eq_getElem, hgi] at hcq
        simp [isRunning] at hcq
        refine ⟨by simp [hinv.len], ?_, ?_, ?_, ?_, ?_, ?_⟩
        · show s.permits + (s.tasks.set i TaskSt.queued).countP isRunning = p0
          have hb := hinv.bal
          rw [countRunning] at hb
          omega
        · intro j o hj
          rcases eq_or_ne i j with rfl | hne
          · rw [List.getElem?_set_self (by simpa using hi)] at hj
            simp at hj
          · rw [List.getElem?_set_ne hne] at hj
            exact hinv.done_eq j o hj
        · intro j hjq
          show (s.tasks.set i TaskSt.queued)[j]? = some TaskSt.queued
          rcases List.mem_append.mp hjq with hjq | hjq
          · have hold := hinv.queue_mem j hjq
            have hne : i ≠ j := by
              intro hij
              rw [← hij, hti] at hold
              simp at hold
            rw [List.getElem?_set_ne hne]
            exact hold
          · rcases List.mem_singleton.mp hjq with rfl
            rw [List.getElem?_set_self (by simpa using hi)]
        · rw [List.nodup_append]
          refine ⟨hinv.nodup, List.nodup_singleton i, ?_⟩
          intro j hjq hji
          rcases List.mem_singleton.mp hji with rfl
          have hold := hinv.queue_mem j hjq
          rw [hti] at hold
          simp at hold
        · show s.tokens = ((s.tasks.set i TaskSt.queued).map tokOf).sum
          have ht := htok TaskSt.queued
          rw [List.get_eq_getElem, hgi] at ht
          simp only [tokOf, Nat.add_zero] at ht
          rw [hinv.tokens_eq, ht]
        · intro hfe j o hj
          rcases eq_or_ne i j with rfl | hne
          · rw [List.getElem?_set_self (by simpa using hi)] at hj
            simp at hj
          · rw [List.getElem?_set_ne hne] at hj
            exact hinv.err_none hfe j o hj

lemma inv_complete (body : Nat → Except String (JVal × Nat)) (p0 n : Nat)
    (s s' : MState) (i : Nat)
    (hinv : Inv body p0 n s) (h : completeStep body s i = some s') : Inv body p0 n s' := by
  rw [completeStep] at h
  rcases hti : s.tasks[i]? with _ | t
  · rw [hti] at h; simp at h
  · rw [hti] at h
    cases t with
    | pending => simp at h
    | queued => simp at h
    | done o => simp at h
    | running =>
      obtain ⟨hi, hgi⟩ := List.getElem?_eq_some_iff.mp hti
      have hcount := countP_set_symm isRunning s.tasks i (TaskSt.done (body i)) hi
      rw [List.get_eq_getElem, hgi] at hcount
      simp [isRunning] at hcount
      have htok := sum_map_tokOf_set s.tasks i hi (TaskSt.done (body i))
      rw [List.get_eq_getElem, hgi] at htok
      rw [show tokOf TaskSt.running = 0 from rfl, Nat.add_zero] at htok
      have hsum1 : ((s.tasks.set i (TaskSt.done (body i))).map tokOf).sum =
          s.tokens + tokOf (TaskSt.done (body i)) := by
        rw [hinv.tokens_eq]; omega
      have htok1 : (match body i with
          | Except.ok (_, tk) => s.tokens + tk
          | Except.error _ => s.tokens) =
          ((s.tasks.set i (TaskSt.done (body i))).map tokOf).sum := by
        rw [hsum1]
        rcases hbo : body i with e | ⟨v, tk⟩ <;> simp [tokOf, hbo]
      have hdone1 : ∀ (k : Nat) (o : Except String (JVal × Nat)),
          (s.tasks.set i (TaskSt.done (body i)))[k]? = some (TaskSt.done o) → o = body k := by
        intro k o hk
        rcases eq_or_ne i k with rfl | hne
        · rw [List.getElem?_set_self (by simpa using hi)] at hk
          simp at hk
          exact hk.symm
        · rw [List.getElem?_set_ne hne] at hk
          exact hinv.done_eq k o hk
      have herr1 : (match s.firstErr, body i with
            | none, Except.error e => some e
            | f, _ => f) = none →
          ∀ (k : Nat) (o : Except String (JVal × Nat)),
            (s.tasks.set i (TaskSt.done (body i)))[k]? = some (TaskSt.done o) →
              ∃ v tk, o = Except.ok (v, tk) := by
        intro hfe k o hk
        rcases hf0 : s.firstErr with _ | f
        · rcases hbo : body i with e | ⟨v, tk⟩
          · rw [hf0, hbo] at hfe; simp at hfe
          · rcases eq_or_ne i k with rfl | hne
            · rw [List.getElem?_set_self (by simpa using hi)] at hk
              simp at hk
              exact ⟨v, tk, by rw [← hk, hbo]⟩
            · rw [List.getElem?_set_ne hne] at hk
              exact hinv.err_none hf0 k o hk
        · rw [hf0] at hfe
          rcases hbo : body i with e | ⟨v, tk⟩ <;> rw [hbo] at hfe <;> simp at hfe
      rcases hq : s.queue with _ | ⟨j, rest⟩
      · rw [hq] at h
        cases h
        refine ⟨by simp [hinv.len], ?_, hdone1, by simp, by simp, htok1, herr1⟩
        · show s.permits + 1 + (s.tasks.set i (TaskSt.done (body i))).countP isRunning = p0
          have hb := hinv.bal
          rw [countRunning] at hb
          omega
      · rw [hq] at h
        cases h
        have hqj : s.tasks[j]? = some TaskSt.queued := hinv.queue_mem j (by rw [hq]; simp)
        have hne : i ≠ j := by
          intro hij
          rw [← hij, hti] at hqj
          simp at hqj
        obtain ⟨hj, hgj⟩ := List.getElem?_eq_some_iff.mp hqj
        have hj1 : j < (s.tasks.set i (TaskSt.done (body i))).length := by simpa using hj
        have hgj1 : (s.tasks.set i (TaskSt.done (body i)))[j]? = some TaskSt.queued := by
          rw [List.getElem?_set_ne hne]; exact hqj
        have hcount2 := countP_set_symm isRunning
          (s.tasks.set i (TaskSt.done (body i))) j TaskSt.running hj1
        rw [List.get_eq_getElem, (List.getElem?_eq_some_iff.mp hgj1).choose_spec] at hcount2
        simp [isRunning] at hcount2
        have htok2 := sum_map_tokOf_set
          (s.tasks.set i (TaskSt.done (body i))) j hj1 TaskSt.running
        rw [List.get_eq_getElem, (List.getElem?_eq_some_iff.mp hgj1).choose_spec] at htok2
        rw [show tokOf TaskSt.queued = 0 from rfl, show tokOf TaskSt.running = 0 from rfl,
          Nat.add_zero, Nat.add_zero] at htok2
        have hnodup : (j :: rest).Nodup := by rw [← hq]; exact hinv.nodup
        refine ⟨by simp [hinv.len], ?_, ?_, ?_, ?_, ?_, ?_⟩
        · show s.permits + 1 - 1 +
            ((s.tasks.set i (TaskSt.done (body i))).set j TaskSt.running).countP isRunning = p0
          have hb := hinv.bal
          rw [countRunning] at hb
          omega
        · intro k o hk
          rcases eq_or_ne j k with rfl | hnejk
          · rw [List.getElem?_set_self hj1] at hk
            simp at hk
          · rw [List.getElem?_set_ne hnejk] at hk
            exact hdone1 k o hk
        · intro k hkq
          have hkq0 : k ∈ s.queue := by rw [hq]; exact List.mem_cons_of_mem j hkq
          have hold := hinv.queue_mem k hkq0
          have hnek : i ≠ k := by
            intro hik
            rw [← hik, hti] at hold
            simp at hold
          have hnejk : j ≠ k := by
            intro hjk
            rcases List.nodup_cons.mp hnodup with ⟨hjn, _⟩
            exact hjn (hjk ▸ hkq)
          show ((s.tasks.set i (TaskSt.done (body i))).set j TaskSt.running)[k]? =
            some TaskSt.queued
          rw [List.getElem?_set_ne hnejk, List.getElem?_set_ne hnek]
          exact hold
        · exact (List.nodup_cons.mp hnodup).2
        · show (match body i with
              | Except.ok (_, tk) => s.tokens + tk
              | Except.error _ => s.tokens) =
            (((s.tasks.set i (TaskSt.done (body i))).set j TaskSt.running).map tokOf).sum
          rw [htok1]
          omega
        · intro hfe k o hk
          rcases eq_or_ne j k with rfl | hnejk
          · rw [List.getElem?_set_self hj1] at hk
            simp at hk
          · rw [List.getElem?_set_ne hnejk] at hk
            exact herr1 hfe k o hk

/-- Every reachable state of the gate machine satisfies the invariant. -/
lemma inv_reach (body : Nat → Except String (JVal × Nat)) (p0 n : Nat)
    (s : MState) (hs : Reach body p0 n s) : Inv body p0 n s := by
  induction hs with
  | init => exact inv_init body p0 n
  | next ev hs h ih =>
    cases ev with
    | spawn i => exact inv_spawn body p0 n _ _ i ih h
    | complete i => exact inv_complete body p0 n _ _ i ih h

/-- Spawning a task never touches the recorded first rejection. -/
lemma spawnStep_firstErr (s s' : MState) (i : Nat) (h : spawnStep s i = some s') :
    s'.firstErr = s.firstErr := by
  rw [spawnStep] at h
  rcases hti : s.tasks[i]? with _ | t <;> rw [hti] at h
  · simp at h
  · cases t with
    | pending =>
      by_cases hp : 0 < s.permits
      · rw [if_pos hp] at h; cases h; rfl
      · rw [if_neg hp] at h; cases h; rfl
    | queued => simp at h
    | running => simp at h
    | done o => simp at h

/-- A completion records the first rejection exactly when it is the first
failing body. -/
lemma completeStep_firstErr (body : Nat → Except String (JVal × Nat))
    (s s' : MState) (i : Nat) (h : completeStep body s i = some s') :
    s'.firstErr = (match s.firstErr, body i with
      | none, Except.error e => some e
      | f, _ => f) := by
  rw [completeStep] at h
  rcases hti : s.tasks[i]? with _ | t <;> rw [hti] at h
  · simp at h
  · cases t with
    | pending => simp at h
    | queued => simp at h
    | done o => simp at h
    | running =>
      rcases hq : s.queue with _ | ⟨j, rest⟩ <;> rw [hq] at h <;> cases h <;> rfl

/-- A completion step is only valid on a running task. -/
lemma completeStep_running (body : Nat → Except String (JVal × Nat))
    (s s' : MState) (i : Nat) (h : completeStep body s i = some s') :
    s.tasks[i]? = some TaskSt.running := by
  rw [completeStep] at h
  rcases hti : s.tasks[i]? with _ | t <;> rw [hti] at h
  · simp at h
  · cases t with
    | pending => simp at h
    | queued => simp at h
    | done o => simp at h
    | running => rfl

/-- If every body succeeds, no rejection is ever recorded. -/
lemma reach_firstErr_none (body : Nat → Except String (JVal × Nat)) (p0 n : Nat)
    (s : MState) (hs : Reach body p0 n s)
    (hok : ∀ i, i < n → ∃ v tk, body i = Except.ok (v, tk)) : s.firstErr = none := by
  induction hs with
  | init => rfl
  | next ev hs h ih =>
    cases ev with
    | spawn i => rw [spawnStep_firstErr _ _ i h, ih]
    | complete i =>
      have hrun := completeStep_running body _ _ i h
      have hlen := (inv_reach body p0 n _ hs).len
      have hi : i < n := by
        have := (List.getElem?_eq_some_iff.mp hrun).choose
        omega
      obtain ⟨v, tk, hbo⟩ := hok i hi
      rw [completeStep_firstErr body _ _ i h, ih, hbo]

/-- A `filterMap` that succeeds at every position is the positional map. -/
lemma filterMap_eq_range_map {α β : Type} (f : α → Option β) :
    ∀ (l : List α) (g : Nat → β),
      (∀ (i : Nat) (hi : i < l.length), f (l.get ⟨i, hi⟩) = some (g i)) →
      l.filterMap f = (List.range l.length).map g := by
  intro l
  induction l with
  | nil => intro g _; simp
  | cons x xs ih =>
    intro g h
    have h0 : f x = some (g 0) := h 0 (Nat.succ_pos _)
    have hrest := ih (fun i => g (i + 1)) (fun i hi =>
      h (i + 1) (by simpa using Nat.succ_lt_succ hi))
    rw [List.filterMap_cons, h0, hrest]
    simp [List.range_succ_eq_map, List.map_map, Function.comp_def]

/-- Final-state extraction for the Titan path: any schedule that completes
all tasks, with every gated body succeeding, yields the per-task embeddings
in task order and the summed token estimates. -/
lemma titan_final (body : Nat → Except String (JVal × Nat)) (p0 n : Nat) (s : MState)
    (hs : Reach body p0 n s) (hall : allDone s = true)
    (vec : Nat → JVal) (tok : Nat → Nat)
    (hbody : ∀ i, i < n → body i = Except.ok (vec i, tok i)) :
    collectTitan s = Except.ok ((List.range n).map vec, ((List.range n).map tok).sum) := by
  have hinv := inv_reach body p0 n s hs
  have hfe : s.firstErr = none :=
    reach_firstErr_none body p0 n s hs (fun i hi => ⟨vec i, tok i, hbody i hi⟩)
  have htask : ∀ (i : Nat) (hi : i < s.tasks.length),
      s.tasks.get ⟨i, hi⟩ = TaskSt.done (Except.ok (vec i, tok i)) := by
    intro i hi
    have hmem : s.tasks.get ⟨i, hi⟩ ∈ s.tasks := List.get_mem _ _ _
    have hd : isDone (s.tasks.get ⟨i, hi⟩) = true := by
      rw [allDone, List.all_eq_true] at hall
      exact hall _ hmem
    rcases hdt : s.tasks.get ⟨i, hi⟩ with _ | _ | _ | o
    · rw [hdt] at hd; simp [isDone] at hd
    · rw [hdt] at hd; simp [isDone] at hd
    · rw [hdt] at hd; simp [isDone] at hd
    · have hdt2 : s.tasks[i] = TaskSt.done o := hdt
      have hio : s.tasks[i]? = some (TaskSt.done o) := by
        rw [List.getElem?_eq_getElem hi, hdt2]
      have hoeq := hinv.done_eq i o hio
      have hin : i < n := by rw [← hinv.len]; exact hi
      rw [hoeq, hbody i hin]
  have hlist : s.tasks.filterMap (fun t =>
      match t with
      | TaskSt.done (Except.ok (v, _)) => some v
      | _ => none) = (List.range s.tasks.length).map vec := by
    apply filterMap_eq_range_map
    intro i hi
    rw [htask i hi]
  have htoksum : s.tokens = ((List.range n).map tok).sum := by
    rw [hinv.tokens_eq]
    have hmapeq : s.tasks.map tokOf = (List.range n).map tok := by
      apply List.ext_getElem (by simp [hinv.len])
      intro i h1 h2
      have h3 : i < s.tasks.length := by simpa using h1
      have hg : s.tasks[i] = TaskSt.done (Except.ok (vec i, tok i)) := htask i h3
      rw [List.getElem_map, List.getElem_map, List.getElem_range, hg]
      rfl
    rw [hmapeq]
  simp only [collectTitan, hfe]
  rw [hlist, hinv.len, htoksum]

/-- The two family prefixes are mutually exclusive (they differ at the first
character), so the dispatch order in `createEmbeddings` never hides the
Cohere branch. -/
lemma titan_cohere_exclusive (m : String) (h : isCohereModel m = true) :
    isTitanModel m = false := by
  by_contra hT
  rw [Bool.not_eq_false] at hT
  rw [isTitanModel, strStartsWith, decide_eq_true_eq] at hT
  rw [isCohereModel, strStartsWith, decide_eq_true_eq] at h
  have h1 : m.data[0]? = some 'a' := by
    have := congrArg (fun l => l[0]?) hT
    simpa [List.getElem?_take_of_lt (by norm_num : (0:Nat) < "amazon.titan-embed-".data.length)]
      using this
  have h2 : m.data[0]? = some 'c' := by
    have := congrArg (fun l => l[0]?) h
    simpa [List.getElem?_take_of_lt (by norm_num : (0:Nat) < "cohere.embed-".data.length)]
      using this
  rw [h1] at h2
  simp at h2

/-- Joint states of two concurrent `createEmbeddings` invocations on one
engine instance: each Titan call constructs its own
`new Semaphore(maxConcurrency)` inside `processTitanEmbeddings`, so the two
calls' gate states evolve independently, interleaved in any order. -/
inductive TwoCallReach (body1 body2 : Nat → Except String (JVal × Nat))
    (p0 n1 n2 : Nat) : MState → MState → Prop
  | init : TwoCallReach body1 body2 p0 n1 n2 (initState p0 n1) (initState p0 n2)
  | stepL {s1 s2 s1' : MState} (ev : MStep) : TwoCallReach body1 body2 p0 n1 n2 s1 s2 →
      mstep body1 s1 ev = some s1' → TwoCallReach body1 body2 p0 n1 n2 s1' s2
  | stepR {s1 s2 s2' : MState} (ev : MStep) : TwoCallReach body1 body2 p0 n1 n2 s1 s2 →
      mstep body2 s2 ev = some s2' → TwoCallReach body1 body2 p0 n1 n2 s1 s2'

/-! ### Witness fixtures -/

/-- A trivial gated body that always succeeds. -/
def bW : Nat → Except String (JVal × Nat) := fun _ => Except.ok (JVal.arr [], 0)

/-- One single-text call with `maxConcurrency = 1`, after its task spawned. -/
def sA : MState := ⟨0, [], [TaskSt.running], 0, none, [0]⟩

/-- Two-task call with `maxConcurrency = 1` after spawning task 0. -/
def sW1 : MState := ⟨0, [], [TaskSt.running, TaskSt.pending], 0, none, [0]⟩

/-- Two-task call with `maxConcurrency = 1` after spawning both tasks:
task 0 runs, task 1 waits in the queue. -/
def sW : MState := ⟨0, [1], [TaskSt.running, TaskSt.queued], 0, none, [0]⟩

/-- State `sW` after task 0 completes: the queued task 1 is woken and starts. -/
def sW2 : MState :=
  ⟨0, [], [TaskSt.done (Except.ok (JVal.arr [], 0)), TaskSt.running], 0, none, [0, 1]⟩

/-- State `sW` is reachable in a two-task, one-permit run. -/
def reachW : Reach bW 1 2 sW :=
  Reach.next (MStep.spawn 1)
    (Reach.next (MStep.spawn 0) Reach.init
      (rfl : mstep bW (initState 1 2) (MStep.spawn 0) = some sW1))
    (rfl : mstep bW sW1 (MStep.spawn 1) = some sW)

/-- A 429-shaped throttling failure. -/
def e429 : RawError := ⟨some 429, "Too Many Requests"⟩

/-- A generic (status-less) transport failure. -/
def eGen : RawError := ⟨none, "API connection failed"⟩

/-- A well-formed Titan response body. -/
def titanBodyW : JVal := JVal.obj [("embedding", JVal.arr [JVal.num 1])]

/-- Transport that throttles twice, then succeeds. -/
def trThrottleTwice : Nat → TransportOutcome := fun i =>
  if i < 2 then TransportOutcome.err e429 else TransportOutcome.ok titanBodyW

/-- Transport that always fails with a generic error. -/
def trFailAll : Nat → Nat → TransportOutcome := fun _ _ => TransportOutcome.err ⟨none, "boom"⟩

/-- The gated bodies of a two-text Titan run over `trFailAll`. -/
def bF : Nat → Except String (JVal × Nat) :=
  fun i => (embedTitanText 3 500 (trFailAll i) (["a", "b"].getD i "")).result

/-- Two-text failing Titan run, `maxConcurrency = 1`, both tasks spawned. -/
def sF1 : MState := ⟨0, [1], [TaskSt.running, TaskSt.queued], 0, none, [0]⟩

/-- State `sF1` after task 0's body fails terminally: the failure is recorded and,
in the same `finally` block, queued task 1 is woken and starts its own
transport call. -/
def sF2 : MState :=
  ⟨0, [],
    [TaskSt.done (Except.error "Failed to create embeddings after 3 attempts: boom"),
      TaskSt.running], 0,
    some "Failed to create embeddings after 3 attempts: boom", [0, 1]⟩

/-- The Cohere loop never looks past the first failing chunk: its result is
the first failure's error, and it is unchanged under any transport that
agrees on chunks up to the failing one — no transport call is issued for
later chunks. -/
lemma cohereGo_abort (maxRetries initialDelayMs : Nat)
    (tr tr' : Nat → Nat → TransportOutcome) (e : String) :
    ∀ (chunks : List (List String)) (idx j : Nat), j < chunks.length →
      (embedCohereBatch maxRetries initialDelayMs (tr (idx + j)) (chunks.getD j [])).result =
        Except.error e →
      (∀ l, l < j → ∃ vs tk,
        (embedCohereBatch maxRetries initialDelayMs (tr (idx + l)) (chunks.getD l [])).result =
          Except.ok (vs, tk)) →
      (∀ l, l ≤ j → tr' (idx + l) = tr (idx + l)) →
      (cohereGo maxRetries initialDelayMs tr idx chunks).1 = Except.error e ∧
      cohereGo maxRetries initialDelayMs tr' idx chunks =
        cohereGo maxRetries initialDelayMs tr idx chunks := by
  intro chunks
  induction chunks with
  | nil => intro idx j hj; simp at hj
  | cons c rest ih =>
    intro idx j hj hfail hok hagree
    cases j with
    | zero =>
      simp only [Nat.add_zero, List.getD_cons_zero] at hfail
      rcases hB : embedCohereBatch maxRetries initialDelayMs (tr idx) c with ⟨r, cc, dd⟩
      rw [hB] at hfail
      simp only at hfail
      subst hfail
      have hagree0 : tr' idx = tr idx := by simpa using hagree 0 (Nat.le_refl 0)
      constructor
      · simp only [cohereGo, hB]
      · simp only [cohereGo, hagree0, hB]
    | succ j =>
      have hok0 := hok 0 (Nat.succ_pos j)
      simp only [Nat.add_zero, List.getD_cons_zero] at hok0
      obtain ⟨vs, tk, hok0⟩ := hok0
      rcases hB : embedCohereBatch maxRetries initialDelayMs (tr idx) c with ⟨r, cc, dd⟩
      rw [hB] at hok0
      simp only at hok0
      subst hok0
      have hagree0 : tr' idx = tr idx := by simpa using hagree 0 (Nat.le_zero.mpr rfl |> fun _ => Nat.zero_le _)
      have hrec := ih (idx + 1) j (by simpa using hj)
        (by
          have harith : idx + 1 + j = idx + (j + 1) := by omega
          rw [harith]
          simpa using hfail)
        (fun l hl => by
          have harith : idx + 1 + l = idx + (l + 1) := by omega
          rw [harith]
          simpa using hok (l + 1) (by omega))
        (fun l hl => by
          have harith : idx + 1 + l = idx + (l + 1) := by omega
          rw [harith]
          exact hagree (l + 1) (by omega))
      constructor
      · simp only [cohereGo, hB]
        rcases hR : cohereGo maxRetries initialDelayMs tr (idx + 1) rest with ⟨r2, c2⟩
        rw [hR] at hrec
        rcases r2 with e2 | p2
        · simpa using hrec.1
        · exact absurd hrec.1 (by simp)
      · simp only [cohereGo, hagree0, hB, hrec.2]

/-- Unfolding `processTitanRun` once the machine run is known to reach `s`. -/
lemma processTitanRun_eq (maxRetries initialDelayMs p0 : Nat)
    (tr : Nat → Nat → TransportOutcome) (texts : List String) (sched : List MStep)
    (s : MState)
    (hm : mrun (fun i => (embedTitanText maxRetries initialDelayMs (tr i)
      (texts.getD i "")).result) sched (initState p0 texts.length) = some s) :
    processTitanRun maxRetries initialDelayMs p0 tr texts sched =
      if allDone s then
        some (collectTitan s, titanTransportCalls
          (fun i => (embedTitanText maxRetries initialDelayMs (tr i)
            (texts.getD i "")).calls) s)
      else none := by
  simp only [processTitanRun]
  rw [hm]

/-- Unfolding `processTitanRun` when the schedule is invalid. -/
lemma processTitanRun_none (maxRetries initialDelayMs p0 : Nat)
    (tr : Nat → Nat → TransportOutcome) (texts : List String) (sched : List MStep)
    (hm : mrun (fun i => (embedTitanText maxRetries initialDelayMs (tr i)
      (texts.getD i "")).result) sched (initState p0 texts.length) = none) :
    processTitanRun maxRetries initialDelayMs p0 tr texts sched = none := by
  simp only [processTitanRun]
  rw [hm]

/-- Whatever vectors a successful Cohere loop returned, its token total is
the summed per-chunk estimate. -/
lemma cohereGo_ok_tokens (maxRetries initialDelayMs : Nat)
    (tr : Nat → Nat → TransportOutcome) :
    ∀ (chunks : List (List String)) (idx : Nat) (vs : List JVal) (tk c : Nat),
      cohereGo maxRetries initialDelayMs tr idx chunks = (Except.ok (vs, tk), c) →
      tk = (chunks.map (fun ch => (ch.map ceilTok).sum)).sum := by
  intro chunks
  induction chunks with
  | nil =>
    intro idx vs tk c h
    simp only [cohereGo] at h
    cases h
    rfl
  | cons ch rest ih =>
    intro idx vs tk c h
    simp only [cohereGo] at h
    rcases hB : embedCohereBatch maxRetries initialDelayMs (tr idx) ch with ⟨r, cc, dd⟩
    rw [hB] at h
    rcases r with e1 | ⟨vs1, tk1⟩
    · simp at h
    · have htk1 : tk1 = (ch.map ceilTok).sum :=
        embedCohereBatch_tokens maxRetries initialDelayMs (tr idx) ch vs1 tk1
          (by rw [hB])
      rcases hR : cohereGo maxRetries initialDelayMs tr (idx + 1) rest with ⟨r2, c2⟩
      rw [hR] at h
      rcases r2 with e2 | ⟨vs2, tk2⟩
      · simp at h
      · simp only at h
        cases h
        have := ih (idx + 1) vs2 tk2 c2 hR
        simp only [List.map_cons, List.sum_cons]
        omega

/-- Summed per-chunk sums equal the sum over the concatenation. -/
lemma sum_map_sum_chunks (f : α → Nat) :
    ∀ C : List (List α), (C.map (fun ch => (ch.map f).sum)).sum = (C.flatten.map f).sum := by
  intro C
  induction C with
  | nil => rfl
  | cons c rest ih => simp [ih]

/-- Whatever the transport returned on a successful Titan run, the token
total is the summed per-text estimate (each gated body computes its estimate
from its own text alone). -/
lemma titan_success_tokens (maxRetries initialDelayMs p0 : Nat)
    (tr : Nat → Nat → TransportOutcome) (texts : List String) (sched : List MStep)
    (embs : List JVal) (tk c : Nat)
    (h : processTitanRun maxRetries initialDelayMs p0 tr texts sched =
      some (Except.ok (embs, tk), c)) :
    tk = (texts.map ceilTok).sum := by
  rcases hm : mrun (fun i => (embedTitanText maxRetries initialDelayMs (tr i)
      (texts.getD i "")).result) sched (initState p0 texts.length) with _ | s
  · rw [processTitanRun_none maxRetries initialDelayMs p0 tr texts sched hm] at h
    simp at h
  · rw [processTitanRun_eq maxRetries initialDelayMs p0 tr texts sched s hm] at h
    by_cases hall : allDone s = true
    · rw [if_pos hall] at h
      have hs : Reach (fun i => (embedTitanText maxRetries initialDelayMs (tr i)
          (texts.getD i "")).result) p0 texts.length s := Reach.run sched Reach.init hm
      have hinv := inv_reach _ p0 texts.length s hs
      rcases hfe : s.firstErr with _ | e
      · have hcol : collectTitan s = Except.ok (s.tasks.filterMap (fun t =>
            match t with
            | TaskSt.done (Except.ok (v, _)) => some v
            | _ => none), s.tokens) := by
          rw [collectTitan, hfe]
        rw [hcol] at h
        simp only [Option.some.injEq, Prod.mk.injEq, Except.ok.injEq] at h
        obtain ⟨⟨hembs, htk⟩, hc⟩ := h
        subst htk
        have hmap : s.tasks.map tokOf = (List.range texts.length).map
            (fun i => ceilTok (texts.getD i "")) := by
          apply List.ext_getElem (by simp [hinv.len])
          intro i h1 h2
          have h3 : i < s.tasks.length := by simpa using h1
          have hd : isDone (s.tasks.get ⟨i, h3⟩) = true := by
            rw [allDone, List.all_eq_true] at hall
            exact hall _ (List.get_mem _ _ _)
          rcases hdt : s.tasks.get ⟨i, h3⟩ with _ | _ | _ | o
          · rw [hdt] at hd; simp [isDone] at hd
          · rw [hdt] at hd; simp [isDone] at hd
          · rw [hdt] at hd; simp [isDone] at hd
          · have hdt2 : s.tasks[i] = TaskSt.done o := hdt
            have hio : s.tasks[i]? = some (TaskSt.done o) := by
              rw [List.getElem?_eq_getElem h3, hdt2]
            have hoeq := hinv.done_eq i o hio
            obtain ⟨v, tkv, hov⟩ := hinv.err_none hfe i o hio
            have htkv : tkv = ceilTok (texts.getD i "") := by
              apply embedTitanText_tokens maxRetries initialDelayMs (tr i)
                (texts.getD i "") v tkv
              rw [← hoeq, hov]
            rw [List.getElem_map, List.getElem_map, List.getElem_range, hdt2, hov, htkv]
            rfl
        rw [hinv.tokens_eq, hmap]
        have htexts : texts.map ceilTok = (List.range texts.length).map
            (fun i => ceilTok (texts.getD i "")) := by
          conv_lhs => rw [eq_range_map_getD texts ""]
          rw [List.map_map]
          rfl
        rw [htexts]
      · rw [collectTitan, hfe] at h
        simp at h
    · rw [if_neg hall] at h; simp at h

/-! ### Branch computations of `createEmbeddings` -/

lemma createEmbeddingsRun_titan_ok (cfg : BedrockEmbedderConfig) (initialDelayMs : Nat)
    (texts : List String) (modelOverride : Option String)
    (tr : Nat → Nat → TransportOutcome) (sched : List MStep)
    (embs : List JVal) (tk c0 : Nat)
    (hT : isTitanModel (resolveModel modelOverride cfg.modelId) = true)
    (hP : processTitanRun cfg.maxRetries initialDelayMs cfg.maxConcurrency tr texts sched =
      some (Except.ok (embs, tk), c0)) :
    createEmbeddingsRun cfg initialDelayMs texts modelOverride tr sched =
      some (Except.ok ⟨embs, ⟨tk, tk⟩⟩, c0) := by
  rw [createEmbeddingsRun]
  simp only [hT]
  rw [hP]
  rfl

lemma createEmbeddingsRun_titan_err (cfg : BedrockEmbedderConfig) (initialDelayMs : Nat)
    (texts : List String) (modelOverride : Option String)
    (tr : Nat → Nat → TransportOutcome) (sched : List MStep) (e : String) (c0 : Nat)
    (hT : isTitanModel (resolveModel modelOverride cfg.modelId) = true)
    (hP : processTitanRun cfg.maxRetries initialDelayMs cfg.maxConcurrency tr texts sched =
      some (Except.error e, c0)) :
    createEmbeddingsRun cfg initialDelayMs texts modelOverride tr sched =
      some (Except.error e, c0) := by
  rw [createEmbeddingsRun]
  simp only [hT]
  rw [hP]
  rfl

lemma createEmbeddingsRun_titan_none (cfg : BedrockEmbedderConfig) (initialDelayMs : Nat)
    (texts : List String) (modelOverride : Option String)
    (tr : Nat → Nat → TransportOutcome) (sched : List MStep)
    (hT : isTitanModel (resolveModel modelOverride cfg.modelId) = true)
    (hP : processTitanRun cfg.maxRetries initialDelayMs cfg.maxConcurrency tr texts sched =
      none) :
    createEmbeddingsRun cfg initialDelayMs texts modelOverride tr sched = none := by
  rw [createEmbeddingsRun]
  simp only [hT]
  rw [hP]
  rfl

lemma createEmbeddingsRun_cohere_ok (cfg : BedrockEmbedderConfig) (initialDelayMs : Nat)
    (texts : List String) (modelOverride : Option String)
    (tr : Nat → Nat → TransportOutcome) (sched : List MStep)
    (embs : List JVal) (tk c0 : Nat)
    (hC : isCohereModel (resolveModel modelOverride cfg.modelId) = true)
    (hP : processCohereEmbeddings cfg.maxRetries initialDelayMs cfg.batchSize tr texts =
      (Except.ok (embs, tk), c0)) :
    createEmbeddingsRun cfg initialDelayMs texts modelOverride tr sched =
      some (Except.ok ⟨embs, ⟨tk, tk⟩⟩, c0) := by
  rw [createEmbeddingsRun]
  simp only [titan_cohere_exclusive _ hC, hC]
  rw [hP]
  rfl

lemma createEmbeddingsRun_cohere_err (cfg : BedrockEmbedderConfig) (initialDelayMs : Nat)
    (texts : List String) (modelOverride : Option String)
    (tr : Nat → Nat → TransportOutcome) (sched : List MStep) (e : String) (c0 : Nat)
    (hC : isCohereModel (resolveModel modelOverride cfg.modelId) = true)
    (hP : processCohereEmbeddings cfg.maxRetries initialDelayMs cfg.batchSize tr texts =
      (Except.error e, c0)) :
    createEmbeddingsRun cfg initialDelayMs texts modelOverride tr sched =
      some (Except.error e, c0) := by
  rw [createEmbeddingsRun]
  simp only [titan_cohere_exclusive _ hC, hC]
  rw [hP]
  rfl

lemma createEmbeddingsRun_unsupported (cfg : BedrockEmbedderConfig) (initialDelayMs : Nat)
    (texts : List String) (modelOverride : Option String)
    (tr : Nat → Nat → TransportOutcome) (sched : List MStep)
    (hT : isTitanModel (resolveModel modelOverride cfg.modelId) = false)
    (hC : isCohereModel (resolveModel modelOverride cfg.modelId) = false) :
    createEmbeddingsRun cfg initialDelayMs texts modelOverride tr sched =
      some (Except.error (unsupportedModelMsg (resolveModel modelOverride cfg.modelId)), 0) := by
  rw [createEmbeddingsRun]
  simp only [hT, hC]
  rfl

/-- A Titan run under well-formed transport: any schedule that completes all
tasks yields one embedding per text, indexed by text position. -/
lemma titan_run_ok (maxRetries initialDelayMs p0 : Nat)
    (tr : Nat → Nat → TransportOutcome) (texts : List String) (sched : List MStep)
    (vecOf : Nat → JVal) (out : (Except String (List JVal × Nat)) × Nat)
    (hmr : 0 < maxRetries)
    (hwf : ∀ i, i < texts.length →
      tr i 0 = TransportOutcome.ok (JVal.obj [("embedding", vecOf i)]) ∧
        ∃ w, vecOf i = JVal.arr w)
    (hrun : processTitanRun maxRetries initialDelayMs p0 tr texts sched = some out) :
    ∃ c, out = (Except.ok ((List.range texts.length).map vecOf,
      ((List.range texts.length).map (fun i => ceilTok (texts.getD i ""))).sum), c) := by
  rcases hm : mrun (fun i => (embedTitanText maxRetries initialDelayMs (tr i)
      (texts.getD i "")).result) sched (initState p0 texts.length) with _ | s
  · rw [processTitanRun_none maxRetries initialDelayMs p0 tr texts sched hm] at hrun
    simp at hrun
  · rw [processTitanRun_eq maxRetries initialDelayMs p0 tr texts sched s hm] at hrun
    by_cases hall : allDone s = true
    · rw [if_pos hall] at hrun
      have hbody : ∀ i, i < texts.length →
          (embedTitanText maxRetries initialDelayMs (tr i) (texts.getD i "")).result =
            Except.ok (vecOf i, ceilTok (texts.getD i "")) := by
        intro i hi
        obtain ⟨htr, w, hw⟩ := hwf i hi
        rw [hw] at htr ⊢
        rw [embedTitanText_ok maxRetries initialDelayMs (tr i) (texts.getD i "") w hmr htr]
      have hfin := titan_final _ p0 texts.length s (Reach.run sched Reach.init hm) hall
        vecOf (fun i => ceilTok (texts.getD i "")) hbody
      rw [hfin] at hrun
      cases hrun
      exact ⟨_, rfl⟩
    · rw [if_neg hall] at hrun
      simp at hrun

/-- A Cohere run under well-formed transport: one call per chunk, outputs
concatenated in chunk order give one embedding per text, indexed by text
position. -/
lemma cohere_run_spec (maxRetries initialDelayMs batchSize : Nat)
    (hmr : 0 < maxRetries) (hbs : 0 < batchSize)
    (tr : Nat → Nat → TransportOutcome) (texts : List String) (vecOf : Nat → JVal)
    (hwf : ∀ j, j < (chunkList batchSize (List.range texts.length)).length →
      tr j 0 = TransportOutcome.ok (JVal.obj [("embeddings",
        JVal.arr (((chunkList batchSize (List.range texts.length)).getD j []).map vecOf))])) :
    processCohereEmbeddings maxRetries initialDelayMs batchSize tr texts =
      (Except.ok ((List.range texts.length).map vecOf,
        ((List.range texts.length).map (fun i => ceilTok (texts.getD i ""))).sum),
        (chunkList batchSize (List.range texts.length)).length) := by
  rw [processCohereEmbeddings]
  have hchunks : chunkList batchSize texts =
      (chunkList batchSize (List.range texts.length)).map
        (fun c => c.map (fun i => texts.getD i "")) := by
    rw [← chunkList_map]
    rw [← eq_range_map_getD texts ""]
  rw [hchunks]
  have h := cohereGo_spec maxRetries initialDelayMs hmr tr (fun i => texts.getD i "")
    vecOf (chunkList batchSize (List.range texts.length)) 0
    (fun j hj => by simpa using hwf j hj)
  rw [h, chunkList_flatten batchSize hbs]

/-- C1: for every non-empty `texts` list whose effective model id matches a
supported family prefix, with every transport call succeeding with a
well-formed response (one vector per Titan call; one vector per text of a
Cohere chunk), any completing run of `createEmbeddings` returns embeddings
of length `texts.length` whose vector at index `i` is the one the transport
returned for `texts[i]` — regardless of the completion order of concurrent
sub-calls (the Titan schedule is universally quantified). -/
theorem createEmbeddings_preserves_input_order
    (cfg : BedrockEmbedderConfig) (initialDelayMs : Nat) (texts : List String)
    (modelOverride : Option String) (tr : Nat → Nat → TransportOutcome)
    (sched : List MStep) (vecOf : Nat → JVal)
    (out : (Except String EmbeddingResponse) × Nat)
    (_hne : texts ≠ [])
    (hmr : 0 < cfg.maxRetries) (hbs : 0 < cfg.batchSize)
    (hfam : isTitanModel (resolveModel modelOverride cfg.modelId) = true ∨
      isCohereModel (resolveModel modelOverride cfg.modelId) = true)
    (htitan : isTitanModel (resolveModel modelOverride cfg.modelId) = true →
      ∀ i, i < texts.length →
        tr i 0 = TransportOutcome.ok (JVal.obj [("embedding", vecOf i)]) ∧
          ∃ w, vecOf i = JVal.arr w)
    (hcohere : isCohereModel (resolveModel modelOverride cfg.modelId) = true →
      ∀ j, j < (chunkList cfg.batchSize (List.range texts.length)).length →
        tr j 0 = TransportOutcome.ok (JVal.obj [("embeddings", JVal.arr
          (((chunkList cfg.batchSize (List.range texts.length)).getD j []).map vecOf))]))
    (hrun : createEmbeddingsRun cfg initialDelayMs texts modelOverride tr sched =
      some out) :
    ∃ u c, out = (Except.ok ⟨(List.range texts.length).map vecOf, u⟩, c) := by
  rcases hfam with hT | hC
  · rcases hP : processTitanRun cfg.maxRetries initialDelayMs cfg.maxConcurrency tr
        texts sched with _ | pout
    · rw [createEmbeddingsRun_titan_none cfg initialDelayMs texts modelOverride tr sched
        hT hP] at hrun
      simp at hrun
    · obtain ⟨c, hout⟩ := titan_run_ok cfg.maxRetries initialDelayMs cfg.maxConcurrency
        tr texts sched vecOf pout hmr (htitan hT) hP
      rw [hout] at hP
      rw [createEmbeddingsRun_titan_ok cfg initialDelayMs texts modelOverride tr sched
        _ _ c hT hP] at hrun
      simp only [Option.some.injEq] at hrun
      exact ⟨_, c, hrun.symm⟩
  · have hP := cohere_run_spec cfg.maxRetries initialDelayMs cfg.batchSize hmr hbs tr
      texts vecOf (hcohere hC)
    rw [createEmbeddingsRun_cohere_ok cfg initialDelayMs texts modelOverride tr sched
      _ _ _ hC hP] at hrun
    simp only [Option.some.injEq] at hrun
    exact ⟨_, _, hrun.symm⟩

/-- C1 witness: a one-text Titan run. -/
theorem createEmbeddings_preserves_input_order_witness :
    ∃ u c, ((Except.ok ⟨[JVal.arr [JVal.num 1]], ⟨1, 1⟩⟩, 1) :
        (Except String EmbeddingResponse) × Nat) =
      (Except.ok ⟨(List.range (["ab"] : List String).length).map
        (fun _ => JVal.arr [JVal.num 1]), u⟩, c) :=
  createEmbeddings_preserves_input_order { modelId := "amazon.titan-embed-text-v1" } 500
    ["ab"] none (fun _ _ => TransportOutcome.ok (JVal.obj [("embedding",
      JVal.arr [JVal.num 1])])) [MStep.spawn 0, MStep.complete 0]
    (fun _ => JVal.arr [JVal.num 1]) (Except.ok ⟨[JVal.arr [JVal.num 1]], ⟨1, 1⟩⟩, 1)
    (by simp) (by decide) (by decide) (Or.inl (by decide))
    (fun _ i _ => ⟨rfl, [JVal.num 1], rfl⟩)
    (fun hC _ _ => absurd hC (by decide)) rfl

/-! ### Claim theorems -/

/-- C2: for a logical outbound call whose transport fails with HTTP-429
throttling on attempts `0..k-1` and succeeds on attempt `k ≤ maxRetries - 1`,
exactly `k+1` transport calls are made, a delay of
`INITIAL_RETRY_DELAY_MS * 2^i` is awaited after failed attempt `i` (pure
exponential backoff, no jitter), and the successful response is returned. -/
theorem retry_throttle_backoff (maxRetries initialDelayMs k : Nat)
    (tr : Nat → TransportOutcome) (body : JVal)
    (hmr : 0 < maxRetries) (hk : k ≤ maxRetries - 1)
    (herr : ∀ i, i < k → ∃ e, tr i = TransportOutcome.err e ∧ e.status = some 429)
    (hok : tr k = TransportOutcome.ok body) :
    invokeModelWithRetries maxRetries initialDelayMs tr =
      ⟨Except.ok body, k + 1, (List.range k).map (fun i => initialDelayMs * 2 ^ i)⟩ :=
  invoke_throttle_run maxRetries initialDelayMs k tr body (by omega) herr hok

/-- C2 witness: two 429 failures then a success with `maxRetries = 3` yield
3 transport calls and delays `[d, 2d]` at `d = 500`. -/
theorem retry_throttle_backoff_witness :
    invokeModelWithRetries 3 500 trThrottleTwice =
      ⟨Except.ok titanBodyW, 3, [500, 1000]⟩ := by
  rw [retry_throttle_backoff 3 500 2 trThrottleTwice titanBodyW (by decide) (by decide)
    (fun i hi => ⟨e429, by rw [trThrottleTwice]; rw [if_pos hi], rfl⟩) rfl]
  rfl

/-- C5: a failure not classified as HTTP-429 throttling is terminal on its
first occurrence — exactly one transport call, no backoff delay, and the
classified error propagates; likewise with `maxRetries = 1` even a 429
throttling failure is terminal with no retry. -/
theorem non_throttle_terminal_first (maxRetries initialDelayMs : Nat)
    (tr : Nat → TransportOutcome) (e : RawError) (hmr : 0 < maxRetries)
    (h : tr 0 = TransportOutcome.err e)
    (hterm : ¬(e.status = some 429) ∨ maxRetries = 1) :
    invokeModelWithRetries maxRetries initialDelayMs tr =
      ⟨Except.error (formatEmbeddingError e maxRetries), 1, []⟩ :=
  invoke_terminal_first maxRetries initialDelayMs tr e hmr h hterm

/-- C5 witness: with `maxRetries = 1` a single 429 response is terminal —
one transport call, no delay. -/
theorem non_throttle_terminal_first_witness :
    invokeModelWithRetries 1 500 (fun _ => TransportOutcome.err e429) =
      ⟨Except.error (formatEmbeddingError e429 1), 1, []⟩ :=
  non_throttle_terminal_first 1 500 (fun _ => TransportOutcome.err e429) e429
    (by decide) rfl (Or.inr rfl)

/-- C6 counterexample: with a generic transport failure on every attempt and
`maxRetries = 3`, `createEmbeddings` makes exactly 1 transport call — not the
3 the claim asserts (the non-429 failure is terminal on the first attempt,
though the formatted message still reads "after 3 attempts"). -/
theorem generic_error_three_calls_cex :
    createEmbeddingsRun { modelId := "amazon.titan-embed-text-v1" } 500 ["hi"] none
      (fun _ _ => TransportOutcome.err ⟨none, "boom"⟩)
      [MStep.spawn 0, MStep.complete 0] =
      some (Except.error "Failed to create embeddings after 3 attempts: boom", 1) ∧
    (1 : Nat) ≠ 3 :=
  ⟨rfl, by decide⟩

/-- C6 amended: if the transport fails with a generic (status-less) error on
the first attempt and `maxRetries = 3`, the call fails with a terminal error
whose message contains "3 attempts" and the underlying error message text,
and exactly 1 transport call is made (no retry, no delay). -/
theorem generic_error_single_call_msg (initialDelayMs : Nat)
    (tr : Nat → TransportOutcome) (e : RawError)
    (h : tr 0 = TransportOutcome.err e) (hst : e.status = none) :
    ∃ msg, invokeModelWithRetries 3 initialDelayMs tr = ⟨Except.error msg, 1, []⟩ ∧
      (∃ a b, msg = a ++ "3 attempts" ++ b) ∧ (∃ a b, msg = a ++ e.message ++ b) := by
  refine ⟨formatEmbeddingError e 3,
    invoke_terminal_first 3 initialDelayMs tr e (by decide) h
      (Or.inl (by rw [hst]; simp)), ?_, ?_⟩
  · refine ⟨"Failed to create embeddings after ", ": " ++ e.message, ?_⟩
    rw [formatEmbeddingError, hst]
    show "Failed to create embeddings after " ++ toString (3 : Nat) ++ " attempts: " ++
        e.message =
      "Failed to create embeddings after " ++ "3 attempts" ++ (": " ++ e.message)
    have hlit : ("Failed to create embeddings after " ++ toString (3 : Nat) ++
        " attempts: " : String) =
        ("Failed to create embeddings after " ++ "3 attempts") ++ ": " := rfl
    rw [hlit, String.append_assoc]
  · refine ⟨"Failed to create embeddings after 3 attempts: ", "", ?_⟩
    rw [formatEmbeddingError, hst]
    show "Failed to create embeddings after " ++ toString (3 : Nat) ++ " attempts: " ++
        e.message =
      "Failed to create embeddings after 3 attempts: " ++ e.message ++ ""
    have hlit : ("Failed to create embeddings after " ++ toString (3 : Nat) ++
        " attempts: " : String) = "Failed to create embeddings after 3 attempts: " := rfl
    rw [hlit, String.append_empty]

/-- C6 amended witness. -/
theorem generic_error_single_call_msg_witness :
    ∃ msg, invokeModelWithRetries 3 500 (fun _ => TransportOutcome.err eGen) =
        ⟨Except.error msg, 1, []⟩ ∧
      (∃ a b, msg = a ++ "3 attempts" ++ b) ∧
      (∃ a b, msg = a ++ eGen.message ++ b) :=
  generic_error_single_call_msg 500 (fun _ => TransportOutcome.err eGen) eGen rfl rfl

/-- C7 counterexample: a Cohere chunk of one text whose transport response
carries an `embeddings` array of the wrong length (zero vectors) is accepted
as-is — `createEmbeddings` succeeds with an empty embeddings list instead of
failing with a malformed-response error. -/
theorem cohere_decode_length_cex :
    createEmbeddingsRun { modelId := "cohere.embed-english-v3" } 500 ["ab"] none
      (fun _ _ => TransportOutcome.ok (JVal.obj [("embeddings", JVal.arr [])])) [] =
      some (Except.ok ⟨[], ⟨1, 1⟩⟩, 1) := rfl

/-- C7 amended: for a Cohere chunk whose transport call succeeds, decoding
checks only `Array.isArray`: an `embeddings` array of any length or element
shape is accepted as-is; any non-array (or absent) `embeddings` field fails
immediately with the error naming the family, with exactly one transport
call and no retry. -/
theorem cohere_decode_array_only (maxRetries initialDelayMs : Nat)
    (tr : Nat → TransportOutcome) (texts : List String) (body : JVal)
    (hmr : 0 < maxRetries) (h : tr 0 = TransportOutcome.ok body) :
    (∀ xs, getField body "embeddings" = some (JVal.arr xs) →
      embedCohereBatch maxRetries initialDelayMs tr texts =
        ⟨Except.ok (xs, (texts.map ceilTok).sum), 1, []⟩) ∧
    ((∀ xs, getField body "embeddings" ≠ some (JVal.arr xs)) →
      embedCohereBatch maxRetries initialDelayMs tr texts =
        ⟨Except.error "Invalid Cohere embedding response", 1, []⟩) :=
  embedCohereBatch_decode maxRetries initialDelayMs tr texts body hmr h

/-- C7 amended witness: a response with no `embeddings` field fails at once
with one transport call. -/
theorem cohere_decode_array_only_witness :
    embedCohereBatch 3 500 (fun _ => TransportOutcome.ok (JVal.obj [])) ["ab"] =
      ⟨Except.error "Invalid Cohere embedding response", 1, []⟩ :=
  (cohere_decode_array_only 3 500 (fun _ => TransportOutcome.ok (JVal.obj []))
    ["ab"] (JVal.obj []) (by decide) rfl).2 (fun xs => by simp [getField])

/-- C8 counterexample: for the text "ééé" (3 UTF-16 code units, 6 UTF-8
bytes) a successful call reports `promptTokens = ceil(3/4) = 1`, while the
claimed `ceil(utf8_length/4)` formula gives 2 — the source divides the
JavaScript UTF-16 `length`, not the UTF-8 byte length, by 4. -/
theorem usage_utf8_cex :
    createEmbeddingsRun { modelId := "amazon.titan-embed-text-v1" } 500 ["ééé"] none
      (fun _ _ => TransportOutcome.ok (JVal.obj [("embedding", JVal.arr [])]))
      [MStep.spawn 0, MStep.complete 0] =
      some (Except.ok ⟨[JVal.arr []], ⟨1, 1⟩⟩, 1) ∧
    (["ééé"].map specUtf8TokenEstimate).sum = 2 ∧ (1 : Nat) ≠ 2 :=
  ⟨rfl, by decide, by decide⟩

/-- C8 amended: for every successful `createEmbeddings` call, the usage
counters satisfy `promptTokens = totalTokens =` the sum over all input texts
of `ceil(utf16_length(text)/4)`, where `utf16_length` is the number of UTF-16
code units of the text (JavaScript's `text.length`) — not its UTF-8 byte
length. -/
theorem usage_utf16_sum (cfg : BedrockEmbedderConfig) (initialDelayMs : Nat)
    (texts : List String) (modelOverride : Option String)
    (tr : Nat → Nat → TransportOutcome) (sched : List MStep)
    (r : EmbeddingResponse) (c : Nat) (hbs : 0 < cfg.batchSize)
    (h : createEmbeddingsRun cfg initialDelayMs texts modelOverride tr sched =
      some (Except.ok r, c)) :
    r.usage.promptTokens = (texts.map ceilTok).sum ∧
      r.usage.totalTokens = (texts.map ceilTok).sum := by
  cases hT : isTitanModel (resolveModel modelOverride cfg.modelId) with
  | true =>
    rcases hP : processTitanRun cfg.maxRetries initialDelayMs cfg.maxConcurrency tr
        texts sched with _ | ⟨res, c0⟩
    · rw [createEmbeddingsRun_titan_none cfg initialDelayMs texts modelOverride tr sched
        hT hP] at h
      simp at h
    · rcases res with e | ⟨embs, tk⟩
      · rw [createEmbeddingsRun_titan_err cfg initialDelayMs texts modelOverride tr sched
          e c0 hT hP] at h
        simp at h
      · rw [createEmbeddingsRun_titan_ok cfg initialDelayMs texts modelOverride tr sched
          embs tk c0 hT hP] at h
        simp only [Option.some.injEq, Prod.mk.injEq, Except.ok.injEq] at h
        obtain ⟨h1, h2⟩ := h
        rw [← h1]
        have := titan_success_tokens cfg.maxRetries initialDelayMs cfg.maxConcurrency tr
          texts sched embs tk c0 hP
        simp [this]
  | false =>
    cases hC : isCohereModel (resolveModel modelOverride cfg.modelId) with
    | true =>
      rcases hP : processCohereEmbeddings cfg.maxRetries initialDelayMs cfg.batchSize tr
          texts with ⟨res, c0⟩
      rcases res with e | ⟨embs, tk⟩
      · rw [createEmbeddingsRun_cohere_err cfg initialDelayMs texts modelOverride tr sched
          e c0 hC hP] at h
        simp at h
      · rw [createEmbeddingsRun_cohere_ok cfg initialDelayMs texts modelOverride tr sched
          embs tk c0 hC hP] at h
        simp only [Option.some.injEq, Prod.mk.injEq, Except.ok.injEq] at h
        obtain ⟨h1, h2⟩ := h
        rw [← h1]
        rw [processCohereEmbeddings] at hP
        have htk := cohereGo_ok_tokens cfg.maxRetries initialDelayMs tr
          (chunkList cfg.batchSize texts) 0 embs tk c0 hP
        rw [sum_map_sum_chunks, chunkList_flatten cfg.batchSize hbs] at htk
        simp [htk]
    | false =>
      rw [createEmbeddingsRun_unsupported cfg initialDelayMs texts modelOverride tr sched
        hT hC] at h
      simp at h

/-- C8 amended witness. -/
theorem usage_utf16_sum_witness :
    (⟨[JVal.arr []], ⟨1, 1⟩⟩ : EmbeddingResponse).usage.promptTokens =
      (["ééé"].map ceilTok).sum ∧
    (⟨[JVal.arr []], ⟨1, 1⟩⟩ : EmbeddingResponse).usage.totalTokens =
      (["ééé"].map ceilTok).sum :=
  usage_utf16_sum { modelId := "amazon.titan-embed-text-v1" } 500 ["ééé"] none
    (fun _ _ => TransportOutcome.ok (JVal.obj [("embedding", JVal.arr [])]))
    [MStep.spawn 0, MStep.complete 0] ⟨[JVal.arr []], ⟨1, 1⟩⟩ 1 (by decide) rfl

/-- C9 counterexample (Titan path): with `maxConcurrency = 1` and two texts,
at the moment task 0's call fails terminally task 1 is only queued — its
transport call not yet issued — yet the very completion step that records
the terminal failure wakes task 1, which starts and issues its transport
call.  Transport calls are therefore issued after the first terminal failure
for work that was not in flight at that moment, contrary to the claim. -/
theorem titan_queued_after_failure_cex :
    mrun bF [MStep.spawn 0, MStep.spawn 1] (initState 1 2) = some sF1 ∧
    sF1.started = [0] ∧ sF1.firstErr = none ∧ sF1.tasks[1]? = some TaskSt.queued ∧
    completeStep bF sF1 0 = some sF2 ∧
    sF2.firstErr = some "Failed to create embeddings after 3 attempts: boom" ∧
    sF2.tasks[1]? = some TaskSt.running ∧ sF2.started = [0, 1] :=
  ⟨rfl, rfl, rfl, rfl, rfl, rfl, rfl, rfl⟩

/-- C9 amended: in the Cohere path, processing is sequential and aborts at
the first terminal chunk failure: the failure surfaces as the result of
`createEmbeddings`, and no transport call is issued for any later chunk (the
outcome is unchanged under any transport agreeing on chunks up to the failing
one).  In the Titan path all per-text gated tasks are launched up front; a
terminal failure still surfaces (the first rejection), but queued sibling
tasks are woken as permits free up and do issue their transport calls. -/
theorem cohere_abort_first_failure (maxRetries initialDelayMs batchSize : Nat)
    (tr tr' : Nat → Nat → TransportOutcome) (texts : List String) (j : Nat) (e : String)
    (hj : j < (chunkList batchSize texts).length)
    (hfail : (embedCohereBatch maxRetries initialDelayMs (tr j)
      ((chunkList batchSize texts).getD j [])).result = Except.error e)
    (hok : ∀ l, l < j → ∃ vs tk, (embedCohereBatch maxRetries initialDelayMs (tr l)
      ((chunkList batchSize texts).getD l [])).result = Except.ok (vs, tk))
    (hagree : ∀ l, l ≤ j → tr' l = tr l) :
    (processCohereEmbeddings maxRetries initialDelayMs batchSize tr texts).1 =
      Except.error e ∧
    processCohereEmbeddings maxRetries initialDelayMs batchSize tr' texts =
      processCohereEmbeddings maxRetries initialDelayMs batchSize tr texts := by
  have h := cohereGo_abort maxRetries initialDelayMs tr tr' e
    (chunkList batchSize texts) 0 j hj (by simpa using hfail)
    (fun l hl => by simpa using hok l hl)
    (fun l hl => by simpa using hagree l hl)
  exact ⟨h.1, h.2⟩

/-- C9 amended witness: one failing chunk surfaces its error; the outcome is
independent of the transport beyond the failing chunk. -/
theorem cohere_abort_first_failure_witness :
    (processCohereEmbeddings 3 500 32 trFailAll ["a"]).1 =
      Except.error "Failed to create embeddings after 3 attempts: boom" ∧
    processCohereEmbeddings 3 500 32 trFailAll ["a"] =
      processCohereEmbeddings 3 500 32 trFailAll ["a"] :=
  cohere_abort_first_failure 3 500 32 trFailAll trFailAll ["a"] 0
    "Failed to create embeddings after 3 attempts: boom" (by decide) rfl
    (fun l hl => absurd hl (by omega)) (fun l _ => rfl)

/-- C10: with an empty `texts` list and a supported model family,
`createEmbeddings` succeeds with no embeddings, zero usage counters, and
zero transport calls. -/
theorem empty_texts_empty_result (cfg : BedrockEmbedderConfig) (initialDelayMs : Nat)
    (modelOverride : Option String) (tr : Nat → Nat → TransportOutcome)
    (hfam : isTitanModel (resolveModel modelOverride cfg.modelId) = true ∨
      isCohereModel (resolveModel modelOverride cfg.modelId) = true) :
    createEmbeddingsRun cfg initialDelayMs [] modelOverride tr [] =
      some (Except.ok ⟨[], ⟨0, 0⟩⟩, 0) := by
  rcases hfam with h | h
  · rw [createEmbeddingsRun]
    simp only [h]
    rfl
  · rw [createEmbeddingsRun]
    simp only [titan_cohere_exclusive _ h, h]
    rfl

/-- C3: at every reachable moment of a `processTitanEmbeddings` run, the
number of concurrently executing gated bodies is at most the gate's permit
count; a completed body wakes exactly the earliest-queued waiter (the queue's
head, which starts running, with the rest of the queue kept in order) or
wakes nobody when the queue is empty — regardless of the completing body's
outcome, so the failure path returns the permit and wakes a waiter too; and
spawning either starts at once or appends the task at the queue's tail. -/
theorem gate_bounded_fifo_wake (body : Nat → Except String (JVal × Nat)) (p0 n : Nat)
    (s : MState) (hs : Reach body p0 n s) :
    countRunning s ≤ p0 ∧
    (∀ (i : Nat) (s' : MState), completeStep body s i = some s' →
      (s.queue = [] ∧ s'.queue = [] ∧ s'.started = s.started) ∨
      (∃ j rest, s.queue = j :: rest ∧ s'.queue = rest ∧
        s'.tasks[j]? = some TaskSt.running ∧ s'.started = s.started ++ [j])) ∧
    (∀ (i : Nat) (s' : MState), spawnStep s i = some s' →
      s'.queue = s.queue ∨ s'.queue = s.queue ++ [i]) := by
  have hinv := inv_reach body p0 n s hs
  refine ⟨?_, ?_, ?_⟩
  · have hb := hinv.bal
    omega
  · intro i s' h
    rw [completeStep] at h
    rcases hti : s.tasks[i]? with _ | t <;> rw [hti] at h
    · simp at h
    · cases t with
      | pending => simp at h
      | queued => simp at h
      | done o => simp at h
      | running =>
        rcases hq : s.queue with _ | ⟨j, rest⟩ <;> rw [hq] at h <;> cases h
        · exact Or.inl ⟨rfl, rfl, rfl⟩
        · refine Or.inr ⟨j, rest, rfl, rfl, ?_, rfl⟩
          have hqj : s.tasks[j]? = some TaskSt.queued :=
            hinv.queue_mem j (by rw [hq]; simp)
          have hj : j < s.tasks.length := (List.getElem?_eq_some_iff.mp hqj).choose
          show ((s.tasks.set i (TaskSt.done (body i))).set j TaskSt.running)[j]? =
            some TaskSt.running
          rw [List.getElem?_set_self (by simpa using hj)]
  · intro i s' h
    rw [spawnStep] at h
    rcases hti : s.tasks[i]? with _ | t <;> rw [hti] at h
    · simp at h
    · cases t with
      | pending =>
        by_cases hp : 0 < s.permits
        · rw [if_pos hp] at h; cases h; exact Or.inl rfl
        · rw [if_neg hp] at h; cases h; exact Or.inr rfl
      | queued => simp at h
      | running => simp at h
      | done o => simp at h

/-- C3 witness: a two-task run with one permit — the bound holds, completing
the runner from the two-running-tasks state wakes exactly the queued waiter,
and spawning the second task appends it at the queue's tail. -/
theorem gate_bounded_fifo_wake_witness :
    countRunning sW ≤ 1 ∧
    ((sW.queue = [] ∧ sW2.queue = [] ∧ sW2.started = sW.started) ∨
      (∃ j rest, sW.queue = j :: rest ∧ sW2.queue = rest ∧
        sW2.tasks[j]? = some TaskSt.running ∧ sW2.started = sW.started ++ [j])) ∧
    (sW.queue = sW1.queue ∨ sW.queue = sW1.queue ++ [1]) :=
  ⟨(gate_bounded_fifo_wake bW 1 2 sW reachW).1,
    (gate_bounded_fifo_wake bW 1 2 sW reachW).2.1 0 sW2 rfl,
    (gate_bounded_fifo_wake bW 1 2 sW1
      (Reach.next (MStep.spawn 0) Reach.init rfl)).2.2 1 sW rfl⟩

/-- C4 counterexample: with `maxConcurrency = 1`, a joint state of two
concurrently running single-text `createEmbeddings` calls on the same engine
is reachable in which 2 gated transport calls execute at once: the gate is
created per call, not owned by the engine, so the claimed engine-wide bound
`maxConcurrency` is exceeded. -/
theorem gate_not_engine_owned_cex :
    TwoCallReach bW bW 1 1 1 sA sA ∧ countRunning sA + countRunning sA = 2 ∧
      ¬(countRunning sA + countRunning sA ≤ 1) := by
  refine ⟨?_, rfl, by decide⟩
  exact TwoCallReach.stepR (MStep.spawn 0)
    (TwoCallReach.stepL (MStep.spawn 0) TwoCallReach.init rfl) rfl

/-- C4 amended: each Titan-path `createEmbeddings` invocation constructs its
own gate, sized `maxConcurrency`, at call time.  Within a single invocation
the number of concurrently executing gated bodies never exceeds
`maxConcurrency`; but concurrent invocations on one engine do not share a
gate, and a joint state of two invocations with `maxConcurrency = 1` is
reachable in which 2 gated bodies execute simultaneously. -/
theorem per_call_gate_bound (body : Nat → Except String (JVal × Nat)) (p0 n : Nat)
    (s : MState) (hs : Reach body p0 n s) :
    countRunning s ≤ p0 ∧
    ∃ s1 s2, TwoCallReach bW bW 1 1 1 s1 s2 ∧ countRunning s1 + countRunning s2 = 2 := by
  constructor
  · have hb := (inv_reach body p0 n s hs).bal
    omega
  · exact ⟨sA, sA, TwoCallReach.stepR (MStep.spawn 0)
      (TwoCallReach.stepL (MStep.spawn 0) TwoCallReach.init rfl) rfl, rfl⟩

/-- C4 amended witness. -/
theorem per_call_gate_bound_witness :
    countRunning sA ≤ 1 ∧
    ∃ s1 s2, TwoCallReach bW bW 1 1 1 s1 s2 ∧ countRunning s1 + countRunning s2 = 2 :=
  per_call_gate_bound bW 1 1 sA (Reach.next (MStep.spawn 0) Reach.init rfl)

/-- C10 witness. -/
theorem empty_texts_empty_result_witness :
    createEmbeddingsRun { modelId := "amazon.titan-embed-text-v1" } 500 [] none
      (fun _ _ => TransportOutcome.err eGen) [] =
      some (Except.ok ⟨[], ⟨0, 0⟩⟩, 0) :=
  empty_texts_empty_result { modelId := "amazon.titan-embed-text-v1" } 500 none
    (fun _ _ => TransportOutcome.err eGen) (Or.inl (by decide))

end KiloBedrock
